import Mathlib

/-!
# Verification of the nanovgo tessellation core

Shallow embedding of the path-recording / flattening / tessellation pipeline
of `nanovgo.go` (package `nanovgo`).  `float32` scalars are embedded as `ℚ`
with exact arithmetic; the transcendental library functions used by the code
(`sqrtF`, `sinCosF`, `acosF`, `tanF`, `atan2F`, whose bodies are not part of
the sources under inspection) are threaded through explicitly as an oracle
structure `FloatFuns`, so every definition stays computable and every theorem
quantifies over the oracle where its value does not matter.
-/

namespace Nanovgo

/-! ## Scalar helpers

The small numeric helpers (`clampF`, `clampI`, `minF`, `maxF`, `absF`,
`signF`) live in utility files of the repository that are not under the
inspected sources; they are modelled here with their standard meaning.
-/

/-- Modelled from the spec: clamp a scalar to an interval (used for stroke
width `[0,200]` and alpha `[0,1]` clamping; utility code not under src). -/
def clampF (a mn mx : ℚ) : ℚ :=
  if a < mn then mn else if a > mx then mx else a

/-- Modelled from the spec: integer clamp (used for the arc segment count;
utility code not under src). -/
def clampI (a mn mx : ℤ) : ℤ :=
  if a < mn then mn else if a > mx then mx else a

/-- Modelled from the spec: `minF` on exact scalars. -/
def minF (a b : ℚ) : ℚ := if a < b then a else b

/-- Modelled from the spec: `maxF` on exact scalars. -/
def maxF (a b : ℚ) : ℚ := if a > b then a else b

/-- Modelled from the spec: `absF` on exact scalars. -/
def absF (a : ℚ) : ℚ := |a|

/-- Oracle bundle for the float math library functions whose bodies are
outside the inspected sources.  Theorems that do not depend on their values
hold for every instantiation. -/
structure FloatFuns where
  sqrt : ℚ → ℚ
  /-- returns `(sin a, cos a)` like the source `sinCosF`. -/
  sinCos : ℚ → ℚ × ℚ
  acos : ℚ → ℚ
  tan : ℚ → ℚ
  atan2 : ℚ → ℚ → ℚ

/-- The `float32` constant `PI` of the repository (nearest binary32 to π),
as an exact rational. -/
def PI : ℚ := 13176795 / 4194304

/-- Modelled from the spec: `ptEquals` — two points are equal when their
squared distance is below the squared distance tolerance (utility code not
under src; spec §4.3 "de-duplicates consecutive points closer than the
distance tolerance"). -/
def ptEquals (x1 y1 x2 y2 tol : ℚ) : Bool :=
  let dx := x2 - x1
  let dy := y2 - y1
  decide (dx * dx + dy * dy < tol * tol)

/-- Modelled from the spec: `distPtSeg` — squared distance from a point to a
segment (utility code not under src; used by `ArcTo` for the collinearity
test). -/
def distPtSeg (x y px py qx qy : ℚ) : ℚ :=
  let pqx := qx - px
  let pqy := qy - py
  let dx := x - px
  let dy := y - py
  let d := pqx * pqx + pqy * pqy
  let t := pqx * dx + pqy * dy
  let t := if d > 0 then t / d else t
  let t := if t < 0 then 0 else if t > 1 then 1 else t
  let ex := px + t * pqx - x
  let ey := py + t * pqy - y
  ex * ex + ey * ey

/-- Modelled from the spec: `normalize` — returns the length of the vector
and the normalized direction; vectors shorter than `1e-6` are returned
unscaled (utility code not under src). -/
def normalize (ff : FloatFuns) (x y : ℚ) : ℚ × ℚ × ℚ :=
  let d := ff.sqrt (x * x + y * y)
  if d > 1 / 1000000 then
    (d, x / d, y / d)
  else
    (d, x, y)

/-- Modelled from the spec: `cross` of two direction vectors (utility code
not under src). -/
def cross (dx0 dy0 dx1 dy1 : ℚ) : ℚ := dx1 * dy0 - dx0 * dy1

/-! ## Transform -/

/-- The 2×3 affine transform `[[a,c,e],[b,d,f]]` of the spec (§3); the Go
type is `TransformMatrix [6]float32`, field `ti` embeds `t[i]`. -/
structure TransformMatrix where
  t0 : ℚ
  t1 : ℚ
  t2 : ℚ
  t3 : ℚ
  t4 : ℚ
  t5 : ℚ
deriving DecidableEq

/-- Modelled from the spec: the identity transform. -/
def IdentityMatrix : TransformMatrix := ⟨1, 0, 0, 1, 0, 0⟩

/-- Modelled from the spec: translation transform. -/
def TranslateMatrix (x y : ℚ) : TransformMatrix := ⟨1, 0, 0, 1, x, y⟩

/-- Modelled from the spec: scale transform. -/
def ScaleMatrix (x y : ℚ) : TransformMatrix := ⟨x, 0, 0, y, 0, 0⟩

/-- Modelled from the spec: rotation transform (uses the `sinCosF` oracle). -/
def RotateMatrix (ff : FloatFuns) (angle : ℚ) : TransformMatrix :=
  let sc := ff.sinCos angle
  ⟨sc.2, sc.1, -sc.1, sc.2, 0, 0⟩

/-- Modelled from the spec: skew along X. -/
def SkewXMatrix (ff : FloatFuns) (angle : ℚ) : TransformMatrix :=
  ⟨1, 0, ff.tan angle, 1, 0, 0⟩

/-- Modelled from the spec: skew along Y. -/
def SkewYMatrix (ff : FloatFuns) (angle : ℚ) : TransformMatrix :=
  ⟨1, ff.tan angle, 0, 1, 0, 0⟩

/-- Modelled from the spec: affine composition `t.Multiply(s)` (matrix
product with `s` applied after `t`, row-vector convention of the source). -/
def TransformMatrix.Multiply (t s : TransformMatrix) : TransformMatrix :=
  ⟨t.t0 * s.t0 + t.t1 * s.t2,
   t.t0 * s.t1 + t.t1 * s.t3,
   t.t2 * s.t0 + t.t3 * s.t2,
   t.t2 * s.t1 + t.t3 * s.t3,
   t.t4 * s.t0 + t.t5 * s.t2 + s.t4,
   t.t4 * s.t1 + t.t5 * s.t3 + s.t5⟩

/-- Modelled from the spec: `t.PreMultiply(s)` premultiplies the current
matrix by a new transform (§3: "New transforms are applied by premultiplying
the current matrix"). -/
def TransformMatrix.PreMultiply (t s : TransformMatrix) : TransformMatrix :=
  s.Multiply t

/-- Modelled from the spec: point mapping through the affine matrix
`[[a,c,e],[b,d,f]]` (§3). -/
def TransformMatrix.TransformPoint (t : TransformMatrix) (sx sy : ℚ) : ℚ × ℚ :=
  (sx * t.t0 + sy * t.t2 + t.t4, sx * t.t1 + sy * t.t3 + t.t5)

/-- Modelled from the spec: `getAverageScale` — average of the lengths of
the two transformed axis vectors (utility code not under src; uses the
`sqrtF` oracle). -/
def TransformMatrix.getAverageScale (ff : FloatFuns) (t : TransformMatrix) : ℚ :=
  let sx := ff.sqrt (t.t0 * t.t0 + t.t2 * t.t2)
  let sy := ff.sqrt (t.t1 * t.t1 + t.t3 * t.t3)
  (sx + sy) * (1 / 2)

/-! ## Colors, paints, render state -/

/-- RGBA color with unclamped exact components. -/
structure Color where
  R : ℚ
  G : ℚ
  B : ℚ
  A : ℚ
deriving DecidableEq

/-- Paint descriptor; the transform is captured by value at assignment. -/
structure Paint where
  xform : TransformMatrix
  extent0 : ℚ
  extent1 : ℚ
  radius : ℚ
  feather : ℚ
  innerColor : Color
  outerColor : Color
  image : ℤ
deriving DecidableEq

/-- Scissor state: a transform plus half-extents. -/
structure nvgScissor where
  xform : TransformMatrix
  extent0 : ℚ
  extent1 : ℚ
deriving DecidableEq

/-- `nvgState`: the render state record of the source (`LineCap` values are
embedded as naturals, `Winding`/`Align` as in the source constants). -/
structure nvgState where
  fill : Paint
  stroke : Paint
  strokeWidth : ℚ
  miterLimit : ℚ
  lineJoin : ℕ
  lineCap : ℕ
  alpha : ℚ
  xform : TransformMatrix
  scissor : nvgScissor
  fontSize : ℚ
  letterSpacing : ℚ
  lineHeight : ℚ
  fontBlur : ℚ
  textAlign : ℕ
  fontID : ℤ
deriving DecidableEq

/-- The Go zero value `nvgState{}` pushed by `Save` on an empty stack. -/
def zeroState : nvgState where
  fill := ⟨⟨0, 0, 0, 0, 0, 0⟩, 0, 0, 0, 0, ⟨0, 0, 0, 0⟩, ⟨0, 0, 0, 0⟩, 0⟩
  stroke := ⟨⟨0, 0, 0, 0, 0, 0⟩, 0, 0, 0, 0, ⟨0, 0, 0, 0⟩, ⟨0, 0, 0, 0⟩, 0⟩
  strokeWidth := 0
  miterLimit := 0
  lineJoin := 0
  lineCap := 0
  alpha := 0
  xform := ⟨0, 0, 0, 0, 0, 0⟩
  scissor := ⟨⟨0, 0, 0, 0, 0, 0⟩, 0, 0⟩
  fontSize := 0
  letterSpacing := 0
  lineHeight := 0
  fontBlur := 0
  textAlign := 0
  fontID := 0

instance : Inhabited nvgState := ⟨zeroState⟩

/-- Modelled from the spec: the configured maximum state-stack depth
(`nvgMaxStates`, constant declared outside the inspected sources). -/
def nvgMaxStates : ℕ := 32

/-! ## Opcode buffer

The source records path commands into a flat `[]float32` buffer; opcodes are
the `nvgCommands` constants, embedded here as the rational values the source
casts them to. -/

/-- `nvgMOVETO` opcode value. -/
def nvgMOVETO : ℚ := 0

/-- `nvgLINETO` opcode value. -/
def nvgLINETO : ℚ := 1

/-- `nvgBEZIERTO` opcode value. -/
def nvgBEZIERTO : ℚ := 2

/-- `nvgCLOSE` opcode value. -/
def nvgCLOSE : ℚ := 3

/-- `nvgWINDING` opcode value. -/
def nvgWINDING : ℚ := 4

/-- `Solid` winding class (`Winding` value 1, counter-clockwise). -/
def WindingSolid : ℚ := 1

/-- `Hole` winding class (`Winding` value 2, clockwise). -/
def WindingHole : ℚ := 2

/-- The `Direction` argument of `Arc`. -/
inductive Direction where
  | counterClockwise
  | clockwise
deriving DecidableEq

/-- `nvgPtCORNER` point flag. -/
def nvgPtCORNER : ℕ := 1

/-- One tagged record of the opcode buffer.  The source stores commands as a
flat `[]float32` of opcode tags followed by their operands; the constructors
embed exactly those tagged records (see `Cmd.encode` for the flat form). -/
inductive Cmd where
  | moveTo (x y : ℚ)
  | lineTo (x y : ℚ)
  | bezierTo (c1x c1y c2x c2y x y : ℚ)
  | close
  | winding (w : ℚ)
deriving DecidableEq

/-- The flat `[]float32` encoding of one command record. -/
def Cmd.encode : Cmd → List ℚ
  | .moveTo x y => [nvgMOVETO, x, y]
  | .lineTo x y => [nvgLINETO, x, y]
  | .bezierTo c1x c1y c2x c2y x y => [nvgBEZIERTO, c1x, c1y, c2x, c2y, x, y]
  | .close => [nvgCLOSE]
  | .winding w => [nvgWINDING, w]

/-- The flat `[]float32` form of a command buffer. -/
def encodeCmds (l : List Cmd) : List ℚ := l.flatMap Cmd.encode

/-- The opcode tag of a command record (the `nvgCommands` value the source
stores in the flat buffer). -/
def Cmd.tag : Cmd → ℕ
  | .moveTo _ _ => 0
  | .lineTo _ _ => 1
  | .bezierTo _ _ _ _ _ _ => 2
  | .close => 3
  | .winding _ => 4

/-- The endpoint of a geometric command record (the trailing coordinate
pair; zero for the operand-free records). -/
def Cmd.endPoint : Cmd → ℚ × ℚ
  | .moveTo x y => (x, y)
  | .lineTo x y => (x, y)
  | .bezierTo _ _ _ _ x y => (x, y)
  | .close => (0, 0)
  | .winding _ => (0, 0)

/-! ## Path cache -/

/-- A flattened point of the path cache: position, segment direction and
length (filled by the flattening post-pass) and the corner/bevel flags. -/
structure nvgPoint where
  x : ℚ
  y : ℚ
  dx : ℚ
  dy : ℚ
  len : ℚ
  flags : ℕ
deriving DecidableEq

instance : Inhabited nvgPoint := ⟨⟨0, 0, 0, 0, 0, 0⟩⟩

/-- A vertex of the produced triangle geometry. -/
structure nvgVertex where
  x : ℚ
  y : ℚ
  u : ℚ
  v : ℚ
deriving DecidableEq

/-- A flattened sub-path: a window `(first, count)` into the shared point
arena plus its classification and output vertex ranges. -/
structure nvgPath where
  first : ℕ
  count : ℕ
  closed : Bool
  nbevel : ℕ
  fills : List nvgVertex
  strokes : List nvgVertex
  winding : ℚ
  convex : Bool
deriving DecidableEq

instance : Inhabited nvgPath :=
  ⟨⟨0, 0, false, 0, [], [], WindingSolid, false⟩⟩

/-- The path cache: shared point arena, sub-paths, bounding box. -/
structure nvgPathCache where
  points : List nvgPoint
  paths : List nvgPath
  bounds : ℚ × ℚ × ℚ × ℚ
deriving DecidableEq

/-- The cleared path cache (state after `BeginPath`). -/
def emptyCache : nvgPathCache := ⟨[], [], (0, 0, 0, 0)⟩

/-- A fresh sub-path record whose window starts at arena offset `n`. -/
def newPathAt (n : ℕ) : nvgPath :=
  { first := n, count := 0, closed := false, nbevel := 0,
    fills := [], strokes := [], winding := WindingSolid, convex := false }

/-- A fresh arena point. -/
def freshPoint (x y : ℚ) (flags : ℕ) : nvgPoint :=
  { x := x, y := y, dx := 0, dy := 0, len := 0, flags := flags }

/-- Modelled from the spec: `addPath` starts a new sub-path whose window
begins at the current end of the point arena, with `Solid` winding (path
cache code not under src; spec §4.3 "MoveTo starts a new Path"). -/
def nvgPathCache.addPath (c : nvgPathCache) : nvgPathCache :=
  { c with paths := c.paths ++ [newPathAt c.points.length] }

/-- Modelled from the spec: `lastPoint` of the arena (path cache code not
under src). -/
def nvgPathCache.lastPoint (c : nvgPathCache) : Option nvgPoint :=
  c.points.getLast?

/-- Replace the last element of a list (helper for in-place mutation of the
arena tail). -/
def setLast (l : List nvgPoint) (p : nvgPoint) : List nvgPoint :=
  l.dropLast ++ [p]

/-- Modelled from the spec: `addPoint` appends a point to the arena for the
current (last) sub-path; a point within the distance tolerance of the
previous point of the same sub-path is merged into it (flags or-ed) instead
of being appended (path cache code not under src; spec §4.3). -/
def nvgPathCache.addPoint (c : nvgPathCache) (x y : ℚ) (flags : ℕ) (distTol : ℚ) :
    nvgPathCache :=
  match c.paths.getLast? with
  | none => c
  | some path =>
    if h : path.count > 0 ∧ c.points ≠ [] then
      let last := c.points.getLast h.2
      if ptEquals last.x last.y x y distTol then
        { c with points := setLast c.points { last with flags := last.flags ||| flags } }
      else
        { c with points := c.points ++ [freshPoint x y flags],
                 paths := c.paths.dropLast ++ [{ path with count := path.count + 1 }] }
    else
      { c with points := c.points ++ [freshPoint x y flags],
               paths := c.paths.dropLast ++ [{ path with count := path.count + 1 }] }

/-- Modelled from the spec: `closePath` marks the current sub-path closed
(path cache code not under src). -/
def nvgPathCache.closePath (c : nvgPathCache) : nvgPathCache :=
  match c.paths.getLast? with
  | none => c
  | some path => { c with paths := c.paths.dropLast ++ [{ path with closed := true }] }

/-- Modelled from the spec: `pathWinding` tags the current sub-path with a
winding class (path cache code not under src). -/
def nvgPathCache.pathWinding (c : nvgPathCache) (winding : ℚ) : nvgPathCache :=
  match c.paths.getLast? with
  | none => c
  | some path => { c with paths := c.paths.dropLast ++ [{ path with winding := winding }] }

/-- Modelled from the spec: the recursion of `tesselateBezier` — adaptive
subdivision of a cubic with the flatness test against the tessellation
tolerance and recursion depth bounded at level 10 (path cache code not under
src; spec §4.3).  The function returns, in source order, the points the
recursion hands to `addPoint`. -/
def tesselateBezierPoints (x1 y1 x2 y2 x3 y3 x4 y4 : ℚ) (level : ℕ)
    (flags : ℕ) (tessTol : ℚ) : List (ℚ × ℚ × ℕ) :=
  if h : level > 10 then
    []
  else
    let x12 := (x1 + x2) * (1 / 2)
    let y12 := (y1 + y2) * (1 / 2)
    let x23 := (x2 + x3) * (1 / 2)
    let y23 := (y2 + y3) * (1 / 2)
    let x34 := (x3 + x4) * (1 / 2)
    let y34 := (y3 + y4) * (1 / 2)
    let x123 := (x12 + x23) * (1 / 2)
    let y123 := (y12 + y23) * (1 / 2)
    let dx := x4 - x1
    let dy := y4 - y1
    let d2 := absF ((x2 - x4) * dy - (y2 - y4) * dx)
    let d3 := absF ((x3 - x4) * dy - (y3 - y4) * dx)
    if (d2 + d3) * (d2 + d3) < tessTol * (dx * dx + dy * dy) then
      [(x4, y4, flags)]
    else
      let x234 := (x23 + x34) * (1 / 2)
      let y234 := (y23 + y34) * (1 / 2)
      let x1234 := (x123 + x234) * (1 / 2)
      let y1234 := (y123 + y234) * (1 / 2)
      tesselateBezierPoints x1 y1 x12 y12 x123 y123 x1234 y1234 (level + 1) 0 tessTol ++
      tesselateBezierPoints x1234 y1234 x234 y234 x34 y34 x4 y4 (level + 1) flags tessTol
termination_by 11 - level
decreasing_by
  all_goals simp at h
  all_goals omega

/-- Modelled from the spec: `tesselateBezier` adds the points of the
adaptive subdivision to the cache in recursion order (path cache code not
under src). -/
def nvgPathCache.tesselateBezier (c : nvgPathCache) (x1 y1 x2 y2 x3 y3 x4 y4 : ℚ)
    (level : ℕ) (flags : ℕ) (tessTol distTol : ℚ) : nvgPathCache :=
  (tesselateBezierPoints x1 y1 x2 y2 x3 y3 x4 y4 level flags tessTol).foldl
    (fun c p => c.addPoint p.1 p.2.1 p.2.2 distTol) c

/-! ## Signed polygon area and point-order reversal -/

/-- The shoelace contribution of one directed edge. -/
def crossTerm (p q : ℚ × ℚ) : ℚ := p.1 * q.2 - q.1 * p.2

/-- Sum of the shoelace contributions of the consecutive (non-wrapping)
edges of a point sequence. -/
def shoeAux : List (ℚ × ℚ) → ℚ
  | p :: q :: rest => crossTerm p q + shoeAux (q :: rest)
  | _ => 0

/-- Modelled from the spec: the signed polygon area of a point sequence
(`polyArea`, utility code not under src; spec §4.3 "compute signed polygon
area"), by the shoelace formula — consecutive edges plus the closing edge
from the last point back to the first. -/
def shoelace (l : List (ℚ × ℚ)) : ℚ :=
  (1 / 2) * (shoeAux l + crossTerm (l.getLastD (0, 0)) (l.headD (0, 0)))

/-- `polyArea` on the first `count` points of an arena window. -/
def polyArea (pts : List nvgPoint) (count : ℕ) : ℚ :=
  shoelace ((pts.take count).map fun p => (p.x, p.y))

/-- Modelled from the spec: `polyReverse` reverses the point order of the
first `count` points (utility code not under src; spec §4.3 "reverse point
order"). -/
def polyReverse (pts : List nvgPoint) (count : ℕ) : List nvgPoint :=
  (pts.take count).reverse ++ pts.drop count

/-! ## Flattening -/

/-- The opcode-walking loop of `flattenPaths` (source `nanovgo.go`,
`flattenPaths`, first loop): walks the command buffer record by record (the
source steps its index by the operand count of each opcode). -/
def commandLoop (tessTol distTol : ℚ) : nvgPathCache → List Cmd → nvgPathCache
  | c, [] => c
  | c, .moveTo x y :: rest =>
    commandLoop tessTol distTol ((c.addPath).addPoint x y nvgPtCORNER distTol) rest
  | c, .lineTo x y :: rest =>
    commandLoop tessTol distTol (c.addPoint x y nvgPtCORNER distTol) rest
  | c, .bezierTo c1x c1y c2x c2y x y :: rest =>
    let c' := match c.lastPoint with
      | none => c
      | some last =>
        c.tesselateBezier last.x last.y c1x c1y c2x c2y x y 0 nvgPtCORNER tessTol distTol
    commandLoop tessTol distTol c' rest
  | c, .close :: rest =>
    commandLoop tessTol distTol c.closePath rest
  | c, .winding w :: rest =>
    commandLoop tessTol distTol (c.pathWinding w) rest

/-- Per-point direction and length of the cyclic segment sequence of one
sub-path (source `flattenPaths`, last loop): point `i` receives the
normalized direction and distance toward point `(i+1) mod count`.  Only the
`dx`/`dy`/`len` fields are written; positions and flags are untouched, as in
the source. -/
def dirLenSeg (ff : FloatFuns) (seg : List nvgPoint) : List nvgPoint :=
  (List.range seg.length).map fun i =>
    let p := seg.getD i default
    let q := seg.getD ((i + 1) % seg.length) default
    let n := normalize ff (q.x - p.x) (q.y - p.y)
    { p with len := n.1, dx := n.2.1, dy := n.2.2 }

/-- Bounding-box accumulation over the points of one sub-path (source
`flattenPaths`, last loop). -/
def boundsSeg (seg : List nvgPoint) (b : ℚ × ℚ × ℚ × ℚ) : ℚ × ℚ × ℚ × ℚ :=
  seg.foldl
    (fun b p =>
      (minF b.1 p.x, minF b.2.1 p.y, maxF b.2.2.1 p.x, maxF b.2.2.2 p.y))
    b

/-- The closing-point merge test of the post-pass (source lines 1463–1470):
the path's last and first point coincide within the distance tolerance and
the path has more than two points. -/
def dedupTest (distTol : ℚ) (path : nvgPath) (seg : List nvgPoint) : Bool :=
  let p0 := seg.getD (path.count - 1) default
  let p1 := seg.getD 0 default
  ptEquals p0.x p0.y p1.x p1.y distTol && decide (path.count > 2)

/-- The winding enforcement of the post-pass (source lines 1472–1480):
reverse the point order when the signed area sign disagrees with the
declared winding class. -/
def enforceWinding (winding : ℚ) (count : ℕ) (seg : List nvgPoint) : List nvgPoint :=
  let area := shoelace (seg.map fun p => (p.x, p.y))
  if decide (count > 2) &&
      ((decide (winding = WindingSolid) && decide (area < 0)) ||
       (decide (winding = WindingHole) && decide (area > 0))) then
    seg.reverse
  else seg

/-- The per-path segment transformation of the post-pass: closing-point
merge, winding enforcement, segment direction/length computation.  Returns
the adjusted count, the closed flag and the rewritten point segment. -/
def postSeg (ff : FloatFuns) (distTol : ℚ) (path : nvgPath) (seg0 : List nvgPoint) :
    ℕ × Bool × List nvgPoint :=
  let dedup := dedupTest distTol path seg0
  let count := if dedup then path.count - 1 else path.count
  let closed := if dedup then true else path.closed
  (count, closed, dirLenSeg ff (enforceWinding path.winding count (seg0.take count)))

/-- The per-path post-pass of `flattenPaths` (source `nanovgo.go`, lines
1460–1498) for the path at index `j`: merge a closing duplicate point,
enforce the winding class by reversing the point order when the signed area
sign disagrees, compute segment directions and lengths, accumulate bounds. -/
def flattenPostStep (ff : FloatFuns) (distTol : ℚ) (c : nvgPathCache) (j : ℕ) :
    nvgPathCache :=
  match c.paths[j]? with
  | none => c
  | some path =>
    let seg0 := (c.points.drop path.first).take path.count
    let r := postSeg ff distTol path seg0
    { c with
      points := c.points.take path.first ++ r.2.2 ++ c.points.drop (path.first + r.1),
      paths := c.paths.set j { path with count := r.1, closed := r.2.1 },
      bounds := boundsSeg r.2.2 c.bounds }

/-- `flattenPaths` (source `nanovgo.go`, lines 1420–1499): skipped entirely
when the cache already holds paths; otherwise walks the opcode buffer and
runs the per-path post-pass, starting from the sentinel bounds. -/
def flattenPaths (ff : FloatFuns) (tessTol distTol : ℚ) (commands : List Cmd)
    (cache : nvgPathCache) : nvgPathCache :=
  if cache.paths.isEmpty = false then
    cache
  else
    let c := commandLoop tessTol distTol cache commands
    let c := { c with bounds := (1000000, 1000000, -1000000, -1000000) }
    (List.range c.paths.length).foldl (flattenPostStep ff distTol) c

/-! ## Drawing context and command recorder -/

/-- The drawing context (`Context` of the source), restricted to the
tessellation pipeline: command buffer, last command point, state stack, path
cache, tolerances and per-frame counters.  The backend (`params`) and the
font stash are external collaborators and appear only through the explicit
outputs of `Fill`/`Stroke`. -/
structure Context where
  commands : List Cmd
  commandX : ℚ
  commandY : ℚ
  states : List nvgState
  cache : nvgPathCache
  tessTol : ℚ
  distTol : ℚ
  fringeWidth : ℚ
  devicePxRatio : ℚ
  drawCallCount : ℤ
  fillTriCount : ℤ
  strokeTriCount : ℤ
deriving DecidableEq

/-- `getState` returns the top of the state stack (the source indexes
`states[len-1]`; the stack is never empty on any reachable context). -/
def Context.getState (ctx : Context) : nvgState :=
  ctx.states.getLastD zeroState

/-- Update the top of the state stack in place. -/
def Context.setState (ctx : Context) (s : nvgState) : Context :=
  { ctx with states := ctx.states.dropLast ++ [s] }

/-- `Save` (source lines 202–211): pushes a copy of the top state, or the
zero state when the stack is empty; a silent no-op at the configured
maximum depth. -/
def Context.Save (ctx : Context) : Context :=
  if ctx.states.length ≥ nvgMaxStates then
    ctx
  else if ctx.states.length > 0 then
    { ctx with states := ctx.states ++ [ctx.states.getLastD zeroState] }
  else
    { ctx with states := ctx.states ++ [zeroState] }

/-- `Restore` (source lines 214–219): pops unless at most one state
remains. -/
def Context.Restore (ctx : Context) : Context :=
  if ctx.states.length > 1 then
    { ctx with states := ctx.states.dropLast }
  else
    ctx

/-- `SetTransform` (source lines 288–291). -/
def Context.SetTransform (ctx : Context) (t : TransformMatrix) : Context :=
  ctx.setState { ctx.getState with xform := ctx.getState.xform.PreMultiply t }

/-- `ResetTransform` (source lines 306–309). -/
def Context.ResetTransform (ctx : Context) : Context :=
  ctx.setState { ctx.getState with xform := IdentityMatrix }

/-- `Translate` (source lines 312–315). -/
def Context.Translate (ctx : Context) (x y : ℚ) : Context :=
  ctx.setState { ctx.getState with xform := ctx.getState.xform.PreMultiply (TranslateMatrix x y) }

/-- `Rotate` (source lines 318–321). -/
def Context.Rotate (ff : FloatFuns) (ctx : Context) (angle : ℚ) : Context :=
  ctx.setState { ctx.getState with xform := ctx.getState.xform.PreMultiply (RotateMatrix ff angle) }

/-- `Scale` (source lines 336–339). -/
def Context.Scale (ctx : Context) (x y : ℚ) : Context :=
  ctx.setState { ctx.getState with xform := ctx.getState.xform.PreMultiply (ScaleMatrix x y) }

/-- The in-place coordinate-transforming walk of `appendCommand` (source
lines 1395–1416): every position operand is mapped through the transform;
`nvgCLOSE` has no operands and `nvgWINDING`'s operand is left untouched. -/
def transformCmds (xform : TransformMatrix) : List Cmd → List Cmd
  | [] => []
  | .moveTo x y :: rest =>
    let p := xform.TransformPoint x y
    .moveTo p.1 p.2 :: transformCmds xform rest
  | .lineTo x y :: rest =>
    let p := xform.TransformPoint x y
    .lineTo p.1 p.2 :: transformCmds xform rest
  | .bezierTo c1x c1y c2x c2y x y :: rest =>
    let p1 := xform.TransformPoint c1x c1y
    let p2 := xform.TransformPoint c2x c2y
    let p3 := xform.TransformPoint x y
    .bezierTo p1.1 p1.2 p2.1 p2.2 p3.1 p3.2 :: transformCmds xform rest
  | .close :: rest => .close :: transformCmds xform rest
  | .winding w :: rest => .winding w :: transformCmds xform rest

/-- `appendCommand` (source lines 1387–1418): remembers the untransformed
trailing pair of floats of the appended buffer (unless the buffer starts
with `nvgCLOSE`/`nvgWINDING`), transforms all position operands through the
current transform, and appends to the command buffer. -/
def Context.appendCommand (ctx : Context) (vals : List Cmd) : Context :=
  let xform := ctx.getState.xform
  let flat := encodeCmds vals
  let isGeom := match vals.head? with
    | some .close => false
    | some (.winding _) => false
    | some _ => true
    | none => false
  let cx := if isGeom then flat.getD (flat.length - 2) ctx.commandX else ctx.commandX
  let cy := if isGeom then flat.getD (flat.length - 1) ctx.commandY else ctx.commandY
  { ctx with
    commandX := cx
    commandY := cy
    commands := ctx.commands ++ transformCmds xform vals }

/-- `BeginPath` (source lines 490–493). -/
def Context.BeginPath (ctx : Context) : Context :=
  { ctx with commands := [], cache := emptyCache }

/-- `MoveTo` (source lines 496–498). -/
def Context.MoveTo (ctx : Context) (x y : ℚ) : Context :=
  ctx.appendCommand [.moveTo x y]

/-- `LineTo` (source lines 501–503). -/
def Context.LineTo (ctx : Context) (x y : ℚ) : Context :=
  ctx.appendCommand [.lineTo x y]

/-- `BezierTo` (source lines 506–508). -/
def Context.BezierTo (ctx : Context) (c1x c1y c2x c2y x y : ℚ) : Context :=
  ctx.appendCommand [.bezierTo c1x c1y c2x c2y x y]

/-- `ClosePath` (source lines 683–685). -/
def Context.ClosePath (ctx : Context) : Context :=
  ctx.appendCommand [.close]

/-- `PathWinding` (source lines 688–690). -/
def Context.PathWinding (ctx : Context) (winding : ℚ) : Context :=
  ctx.appendCommand [.winding winding]

/-! ## Arc -/

/-- The sweep clamp of `Arc` (source lines 532–550): at most one full turn
in the requested direction; a sweep on the wrong side is brought into the
requested direction by repeatedly adding (resp. subtracting) `2π`, which the
source does with a loop and is expressed here in closed form. -/
def arcClampDA (a0 a1 : ℚ) (dir : Direction) : ℚ :=
  let da := a1 - a0
  match dir with
  | .clockwise =>
    if absF da ≥ PI * 2 then PI * 2
    else da + PI * 2 * (if da < 0 then (Nat.ceil (-da / (PI * 2)) : ℚ) else 0)
  | .counterClockwise =>
    if absF da ≥ PI * 2 then -(PI * 2)
    else da - PI * 2 * (if da > 0 then (Nat.ceil (da / (PI * 2)) : ℚ) else 0)

/-- The segment-count divisor of `Arc` (source line 552):
`clampI(int(|da|/(π/2)+0.5), 1, 5)`.  The Go `int` conversion truncates;
the operand is nonnegative here, so it is the floor. -/
def arcNDivs (da : ℚ) : ℕ :=
  (clampI ⌊absF da / (PI * (1 / 2)) + 1 / 2⌋ 1 5).toNat

/-- The value-building loop of `Arc` (source lines 563–579), unrolled from
segment index `i`: one `nvgBEZIERTO` record per segment after the initial
move record (`moveIsLine` tells whether the initial record is the `LineTo`
or the `MoveTo` variant). -/
def arcLoop (ff : FloatFuns) (cx cy r a0 da : ℚ) (nDivs : ℕ) (kappa : ℚ)
    (moveIsLine : Bool) : (i : ℕ) → (px py pTanX pTanY : ℚ) → List Cmd
  | i, px, py, pTanX, pTanY =>
    if h : i > nDivs then []
    else
      let a := a0 + da * i / nDivs
      let sc := ff.sinCos a
      let dy := sc.1
      let dx := sc.2
      let x := cx + dx * r
      let y := cy + dy * r
      let tanX := -dy * r * kappa
      let tanY := dx * r * kappa
      let vals : List Cmd :=
        if i = 0 then [if moveIsLine then .lineTo x y else .moveTo x y]
        else [.bezierTo (px + pTanX) (py + pTanY) (x - tanX) (y - tanY) x y]
      vals ++ arcLoop ff cx cy r a0 da nDivs kappa moveIsLine (i + 1) x y tanX tanY
termination_by i _ _ _ _ => nDivs + 1 - i
decreasing_by omega

/-- The per-segment Bézier tangent factor of `Arc` (source lines 553–559):
the circle-arc κ formula on the half segment angle, negated for
counter-clockwise sweeps. -/
def arcKappa (ff : FloatFuns) (da : ℚ) (nDivs : ℕ) (dir : Direction) : ℚ :=
  let hda := da / (nDivs : ℚ) / 2
  let sc := ff.sinCos hda
  let kappa := absF (4 / 3 * (1 - sc.2) / sc.1)
  if dir = .counterClockwise then -kappa else kappa

/-- `Arc` (source lines 524–581): clamps the sweep, chooses the divisor,
emits a move record followed by one cubic Bézier record per segment, and
appends everything through `appendCommand`. -/
def Context.Arc (ff : FloatFuns) (ctx : Context) (cx cy r a0 a1 : ℚ)
    (dir : Direction) : Context :=
  let moveIsLine := ctx.commands.length > 0
  let da := arcClampDA a0 a1 dir
  let nDivs := arcNDivs da
  let kappa := arcKappa ff da nDivs dir
  let values := arcLoop ff cx cy r a0 da nDivs kappa moveIsLine 0 0 0 0 0
  ctx.appendCommand values

/-- `ArcTo` (source lines 584–630): returns unchanged on an empty path;
falls back to `LineTo(x1,y1)` on each degenerate case; otherwise emits the
tangential arc. -/
def Context.ArcTo (ff : FloatFuns) (ctx : Context) (x1 y1 x2 y2 radius : ℚ) :
    Context :=
  if ctx.commands = [] then ctx
  else
    let x0 := ctx.commandX
    let y0 := ctx.commandY
    if ptEquals x0 y0 x1 y1 ctx.distTol ∨ ptEquals x1 y1 x2 y2 ctx.distTol ∨
       distPtSeg x1 y1 x0 y0 x2 y2 < ctx.distTol * ctx.distTol ∨
       radius < ctx.distTol then
      ctx.LineTo x1 y1
    else
      let n0 := normalize ff (x0 - x1) (y0 - y1)
      let n1 := normalize ff (x2 - x1) (y2 - y1)
      let dx0 := n0.2.1
      let dy0 := n0.2.2
      let dx1 := n1.2.1
      let dy1 := n1.2.2
      let a := ff.acos (dx0 * dx1 + dy0 * dy1)
      let d := radius / ff.tan (a / 2)
      if d > 10000 then
        ctx.LineTo x1 y1
      else if cross dx0 dy0 dx1 dy1 > 0 then
        ctx.Arc ff (x1 + dx0 * d + dy0 * radius) (y1 + dy0 * d + -dx0 * radius)
          radius (ff.atan2 dx0 (-dy0)) (ff.atan2 (-dx1) dy1) .clockwise
      else
        ctx.Arc ff (x1 + dx0 * d + -dy0 * radius) (y1 + dy0 * d + dx0 * radius)
          radius (ff.atan2 (-dx0) dy0) (ff.atan2 dx1 (-dy1)) .counterClockwise

/-! ## Tessellators (backend-facing) -/

/-- `Miter` line join (`LineCap` constant of the source). -/
def Miter : ℕ := 4

/-- Modelled from the spec: the fill-fan vertices of one sub-path
(§4.4 FillTessellator — "assembles the boundary into a triangle fan"; the
tessellator code is not under src).  The fan is the boundary point sequence
with the interior texture coordinates; a path with fewer than 3 points
contributes no fill geometry. -/
def fillFanVerts (points : List nvgPoint) (p : nvgPath) : List nvgVertex :=
  if p.count < 3 then []
  else ((points.drop p.first).take p.count).map fun q =>
    { x := q.x, y := q.y, u := 1 / 2, v := 1 }

/-- Modelled from the spec: the antialiasing fringe ring of one sub-path
(§4.4 — "a ring of fringe triangles extruded outward by the fringe width";
tessellator code not under src).  Both edge vertices per boundary point. -/
def fringeVerts (points : List nvgPoint) (p : nvgPath) (w : ℚ) : List nvgVertex :=
  ((points.drop p.first).take p.count).flatMap fun q =>
    [{ x := q.x + q.dx * w, y := q.y + q.dy * w, u := 1 / 2, v := 1 },
     { x := q.x - q.dx * w, y := q.y - q.dy * w, u := 1 / 2, v := 0 }]

/-- Modelled from the spec: `expandFill` (§4.4; tessellator code not under
src).  Deterministic in the cache and the parameters: each sub-path receives
its fill fan and, when the fringe width is positive, a fringe strip; points,
path windows and bounds are left unchanged. -/
def nvgPathCache.expandFill (c : nvgPathCache) (w : ℚ) (lineJoin : ℕ)
    (miterLimit fringe : ℚ) : nvgPathCache :=
  { c with paths := c.paths.map fun p =>
      { p with
        fills := fillFanVerts c.points p
        strokes := if w > 0 then fringeVerts c.points p w else []
        convex := c.paths.length = 1 } }

/-- Modelled from the spec: `expandStroke` (§4.5 StrokeTessellator;
tessellator code not under src).  Each sub-path receives a triangle strip of
ribbon vertices; points, path windows and bounds are unchanged. -/
def nvgPathCache.expandStroke (c : nvgPathCache) (w : ℚ) (lineCap lineJoin : ℕ)
    (miterLimit fringe tessTol : ℚ) : nvgPathCache :=
  { c with paths := c.paths.map fun p =>
      { p with
        fills := []
        strokes := fringeVerts c.points p w } }

/-- The argument record of the backend `renderFill` call (external
interface, spec §6). -/
structure FillCall where
  paint : Paint
  scissor : nvgScissor
  fringe : ℚ
  bounds : ℚ × ℚ × ℚ × ℚ
  paths : List nvgPath
deriving DecidableEq

/-- The argument record of the backend `renderStroke` call (external
interface, spec §6). -/
structure StrokeCall where
  paint : Paint
  scissor : nvgScissor
  fringe : ℚ
  strokeWidth : ℚ
  paths : List nvgPath
deriving DecidableEq

/-- `Fill` (source lines 714–738): flatten (cached), expand, apply global
alpha, hand the geometry to the backend, count triangles.  `edgeAA` is the
backend's `edgeAntiAlias()` answer. -/
def Context.Fill (ff : FloatFuns) (edgeAA : Bool) (ctx : Context) :
    Context × FillCall :=
  let state := ctx.getState
  let fillPaint := state.fill
  let cache := flattenPaths ff ctx.tessTol ctx.distTol ctx.commands ctx.cache
  let cache :=
    if edgeAA then cache.expandFill ctx.fringeWidth Miter (12 / 5) ctx.fringeWidth
    else cache.expandFill 0 Miter (12 / 5) ctx.fringeWidth
  let fillPaint := { fillPaint with
    innerColor := { fillPaint.innerColor with A := fillPaint.innerColor.A * state.alpha }
    outerColor := { fillPaint.outerColor with A := fillPaint.outerColor.A * state.alpha } }
  let call : FillCall :=
    { paint := fillPaint, scissor := state.scissor, fringe := ctx.fringeWidth,
      bounds := cache.bounds, paths := cache.paths }
  let ctx := { ctx with
    cache := cache
    fillTriCount := ctx.fillTriCount +
      (cache.paths.map fun p => (p.fills.length : ℤ) - 2).sum
    strokeTriCount := ctx.strokeTriCount +
      (cache.paths.map fun p => (p.strokes.length : ℤ) - 2).sum
    drawCallCount := ctx.drawCallCount + 2 * cache.paths.length }
  (ctx, call)

/-- The scaled-and-clamped stroke width of `Stroke` (source line 744),
before the sub-fringe thinness adjustment. -/
def strokeScaledWidth (ff : FloatFuns) (state : nvgState) : ℚ :=
  clampF (state.strokeWidth * state.xform.getAverageScale ff) 0 200

/-- `Stroke` (source lines 741–779): width scaling and clamping, coverage
emulation for sub-fringe widths, global alpha, flatten, the hard rejection
of single-point paths (the source `panic`, modelled as `none`), expansion
and the backend call. -/
def Context.Stroke (ff : FloatFuns) (edgeAA : Bool) (ctx : Context) :
    Option (Context × StrokeCall) :=
  let state := ctx.getState
  let strokeWidth := strokeScaledWidth ff state
  let strokePaint := state.stroke
  let covered := strokeWidth < ctx.fringeWidth
  let alpha := clampF (strokeWidth / ctx.fringeWidth) 0 1
  let strokePaint :=
    if covered then
      { strokePaint with
        innerColor := { strokePaint.innerColor with A := strokePaint.innerColor.A * (alpha * alpha) }
        outerColor := { strokePaint.outerColor with A := strokePaint.outerColor.A * (alpha * alpha) } }
    else strokePaint
  let strokeWidth := if covered then ctx.fringeWidth else strokeWidth
  let strokePaint := { strokePaint with
    innerColor := { strokePaint.innerColor with A := strokePaint.innerColor.A * state.alpha }
    outerColor := { strokePaint.outerColor with A := strokePaint.outerColor.A * state.alpha } }
  let cache := flattenPaths ff ctx.tessTol ctx.distTol ctx.commands ctx.cache
  if cache.paths.any fun p => p.count = 1 then
    none
  else
    let cache :=
      if edgeAA then
        cache.expandStroke (strokeWidth * (1 / 2) + ctx.fringeWidth * (1 / 2))
          state.lineCap state.lineJoin state.miterLimit ctx.fringeWidth ctx.tessTol
      else
        cache.expandStroke (strokeWidth * (1 / 2)) state.lineCap state.lineJoin
          state.miterLimit ctx.fringeWidth ctx.tessTol
    let call : StrokeCall :=
      { paint := strokePaint, scissor := state.scissor, fringe := ctx.fringeWidth,
        strokeWidth := strokeWidth, paths := cache.paths }
    let ctx := { ctx with
      cache := cache
      strokeTriCount := ctx.strokeTriCount +
        (cache.paths.map fun p => (p.strokes.length : ℤ) - 2).sum
      drawCallCount := ctx.drawCallCount + 2 * cache.paths.length }
    some (ctx, call)

/-! ## Theorems -/

/-! Antisymmetry of the signed area under point-order reversal. -/

theorem crossTerm_swap (p q : ℚ × ℚ) : crossTerm q p = -crossTerm p q := by
  unfold crossTerm
  ring

theorem shoeAux_concat (l : List (ℚ × ℚ)) (a : ℚ × ℚ) (h : l ≠ []) :
    shoeAux (l ++ [a]) = shoeAux l + crossTerm (l.getLastD (0, 0)) a := by
  induction l with
  | nil => exact absurd rfl h
  | cons p rest ih =>
    cases rest with
    | nil => simp [shoeAux]
    | cons q rest2 =>
      have hne : q :: rest2 ≠ [] := by simp
      show shoeAux (p :: ((q :: rest2) ++ [a])) = _
      rw [show p :: ((q :: rest2) ++ [a]) = p :: q :: (rest2 ++ [a]) by simp]
      rw [show shoeAux (p :: q :: (rest2 ++ [a])) =
        crossTerm p q + shoeAux (q :: (rest2 ++ [a])) from rfl]
      rw [show (q :: (rest2 ++ [a])) = (q :: rest2) ++ [a] by simp]
      rw [ih hne]
      rw [show shoeAux (p :: q :: rest2) = crossTerm p q + shoeAux (q :: rest2) from rfl]
      rw [show (p :: q :: rest2).getLastD (0, 0) = (q :: rest2).getLastD (0, 0) by simp]
      ring

theorem shoeAux_reverse (l : List (ℚ × ℚ)) : shoeAux l.reverse = -shoeAux l := by
  induction l with
  | nil => simp [shoeAux]
  | cons p rest ih =>
    cases rest with
    | nil => simp [shoeAux]
    | cons q rest2 =>
      rw [show (p :: q :: rest2).reverse = (q :: rest2).reverse ++ [p] by simp]
      rw [shoeAux_concat _ _ (by simp)]
      rw [ih]
      rw [show ((q :: rest2).reverse).getLastD (0, 0) = (q :: rest2).headD (0, 0) by
        rw [List.getLastD_eq_getLast?, List.getLast?_reverse]
        cases rest2 <;> rfl]
      rw [show shoeAux (p :: q :: rest2) = crossTerm p q + shoeAux (q :: rest2) from rfl]
      rw [show (q :: rest2).headD (0, 0) = q from rfl, crossTerm_swap]
      ring

theorem shoelace_reverse (l : List (ℚ × ℚ)) : shoelace l.reverse = -shoelace l := by
  unfold shoelace
  rw [shoeAux_reverse]
  rw [List.getLastD_eq_getLast?, List.getLast?_reverse, List.headD_eq_head?,
    List.head?_reverse, ← List.headD_eq_head?, ← List.getLastD_eq_getLast?]
  rw [crossTerm_swap (l.getLastD (0, 0)) (l.headD (0, 0))]
  ring

/-! Step equations of the opcode walk, as rewriting lemmas. -/

theorem commandLoop_nil (tt dt : ℚ) (c : nvgPathCache) :
    commandLoop tt dt c [] = c := rfl

theorem commandLoop_moveTo (tt dt : ℚ) (c : nvgPathCache) (x y : ℚ) (rest : List Cmd) :
    commandLoop tt dt c (.moveTo x y :: rest) =
      commandLoop tt dt ((c.addPath).addPoint x y nvgPtCORNER dt) rest := rfl

theorem commandLoop_lineTo (tt dt : ℚ) (c : nvgPathCache) (x y : ℚ) (rest : List Cmd) :
    commandLoop tt dt c (.lineTo x y :: rest) =
      commandLoop tt dt (c.addPoint x y nvgPtCORNER dt) rest := rfl

theorem commandLoop_bezierTo (tt dt : ℚ) (c : nvgPathCache)
    (c1x c1y c2x c2y x y : ℚ) (rest : List Cmd) :
    commandLoop tt dt c (.bezierTo c1x c1y c2x c2y x y :: rest) =
      commandLoop tt dt
        (match c.lastPoint with
         | none => c
         | some last =>
           c.tesselateBezier last.x last.y c1x c1y c2x c2y x y 0 nvgPtCORNER tt dt)
        rest := rfl

theorem commandLoop_close (tt dt : ℚ) (c : nvgPathCache) (rest : List Cmd) :
    commandLoop tt dt c (.close :: rest) = commandLoop tt dt c.closePath rest := rfl

theorem commandLoop_winding (tt dt : ℚ) (c : nvgPathCache) (w : ℚ) (rest : List Cmd) :
    commandLoop tt dt c (.winding w :: rest) =
      commandLoop tt dt (c.pathWinding w) rest := rfl

/-! ### Well-formedness of the path cache

The arena windows of the sub-paths are consecutive and disjoint: each path's
window ends no later than the next begins, the last window ends at the end
of the point arena, and every path holds at least one point.  These are the
invariants `flattenPaths` maintains while walking the opcode buffer. -/

/-- Consecutive sub-path windows are disjoint and ordered. -/
def RangesOrdered (paths : List nvgPath) : Prop :=
  ∀ i p q, paths[i]? = some p → paths[i + 1]? = some q → p.first + p.count ≤ q.first

/-- The invariant of the opcode-walking phase. -/
structure CacheWF (c : nvgPathCache) : Prop where
  ordered : RangesOrdered c.paths
  lastEq : ∀ p, c.paths.getLast? = some p → p.first + p.count = c.points.length
  emptyPts : c.paths = [] → c.points = []
  posCount : ∀ p ∈ c.paths, 1 ≤ p.count

theorem setLastP_getElem {α : Type} (l : List α) (x : α) (h : l ≠ []) (i : ℕ) :
    (l.dropLast ++ [x])[i]? =
      if i + 1 < l.length then l[i]? else if i + 1 = l.length then some x else none := by
  rw [List.getElem?_append]
  rw [List.length_dropLast]
  by_cases h1 : i < l.length - 1
  · rw [if_pos h1, List.getElem?_dropLast, if_pos h1, if_pos (by omega)]
  · rw [if_neg h1]
    have hl : 1 ≤ l.length := by
      cases l
      · exact absurd rfl h
      · simp
    by_cases h2 : i + 1 = l.length
    · rw [if_neg (by omega), if_pos h2]
      have : i - (l.length - 1) = 0 := by omega
      rw [this]
      rfl
    · rw [if_neg (by omega), if_neg h2]
      have : 1 ≤ i - (l.length - 1) := by omega
      cases hh : i - (l.length - 1) with
      | zero => omega
      | succ k => rfl

theorem setLastP_length {α : Type} (l : List α) (x : α) (h : l ≠ []) :
    (l.dropLast ++ [x]).length = l.length := by
  rw [List.length_append, List.length_dropLast]
  have hl : 1 ≤ l.length := by
    cases l
    · exact absurd rfl h
    · simp
  simp
  omega

theorem getLast?_ne_nil {α : Type} (l : List α) (p : α) (h : l.getLast? = some p) :
    l ≠ [] := by
  intro hc
  rw [hc] at h
  exact Option.noConfusion h

theorem getLast?_as_getElem (l : List nvgPath) (p : nvgPath) (h : l.getLast? = some p) :
    l[l.length - 1]? = some p := by
  rw [← List.getLast?_eq_getElem?]
  exact h

/-- Appending a path whose window starts after every existing window keeps
the windows ordered. -/
theorem ordered_concat (paths : List nvgPath) (x : nvgPath)
    (hord : RangesOrdered paths)
    (hlast : ∀ p, paths.getLast? = some p → p.first + p.count ≤ x.first) :
    RangesOrdered (paths ++ [x]) := by
  intro i p q hp hq
  rw [List.getElem?_append] at hp hq
  by_cases h1 : i + 1 < paths.length
  · rw [if_pos h1] at hq
    rw [if_pos (by omega)] at hp
    exact hord i p q hp hq
  · rw [if_neg h1] at hq
    by_cases h2 : i + 1 - paths.length = 0
    · rw [h2] at hq
      simp only [List.getElem?_cons_zero, Option.some.injEq] at hq
      have hlen : i + 1 = paths.length := by omega
      have hi : i < paths.length := by omega
      rw [if_pos hi] at hp
      have hplast : paths.getLast? = some p := by
        rw [List.getLast?_eq_getElem?]
        rw [show paths.length - 1 = i by omega]
        exact hp
      rw [← hq]
      exact hlast p hplast
    · rw [show i + 1 - paths.length = (i - paths.length) + 1 by omega] at hq
      simp at hq

/-- Replacing the last path with one of equal window start keeps the windows
ordered. -/
theorem ordered_setLast (paths : List nvgPath) (x : nvgPath) (hne : paths ≠ [])
    (hord : RangesOrdered paths)
    (hfirst : ∀ p, paths.getLast? = some p → x.first = p.first) :
    RangesOrdered (paths.dropLast ++ [x]) := by
  intro i p q hp hq
  rw [setLastP_getElem _ _ hne] at hp hq
  by_cases h1 : i + 1 + 1 < paths.length
  · rw [if_pos h1] at hq
    rw [if_pos (by omega)] at hp
    exact hord i p q hp hq
  · rw [if_neg h1] at hq
    by_cases h2 : i + 1 + 1 = paths.length
    · rw [if_pos h2] at hq
      have hip : i + 1 < paths.length := by omega
      rw [if_pos hip] at hp
      obtain ⟨plast, hplast⟩ : ∃ pl, paths.getLast? = some pl := by
        cases hl : paths.getLast? with
        | none => exact absurd (List.getLast?_eq_none_iff.mp hl) hne
        | some pl => exact ⟨pl, rfl⟩
      have hqx : q = x := by
        injection hq with hq
        exact hq.symm
      have hlastElem : paths[i + 1]? = some plast := by
        have := getLast?_as_getElem paths plast hplast
        rw [show paths.length - 1 = i + 1 by omega] at this
        exact this
      have := hord i p plast hp hlastElem
      rw [hqx, hfirst plast hplast]
      exact this
    · rw [if_neg h2] at hq
      exact absurd hq (by simp)

/-- The `MoveTo` step of the opcode walk in closed form: `addPath`
immediately followed by the first `addPoint` appends one point and one
single-point sub-path. -/
theorem moveToStep_eq (c : nvgPathCache) (x y : ℚ) (fl : ℕ) (tol : ℚ) :
    (c.addPath).addPoint x y fl tol =
      { c with
        points := c.points ++ [freshPoint x y fl],
        paths := c.paths ++ [{ newPathAt c.points.length with count := 1 }] } := by
  unfold nvgPathCache.addPath nvgPathCache.addPoint
  simp only [List.getLast?_concat]
  rw [dif_neg (by simp [newPathAt])]
  simp only [List.dropLast_concat]
  simp [newPathAt]

theorem wf_moveToStep (c : nvgPathCache) (x y : ℚ) (fl : ℕ) (tol : ℚ)
    (h : CacheWF c) : CacheWF ((c.addPath).addPoint x y fl tol) := by
  rw [moveToStep_eq]
  constructor
  · exact ordered_concat _ _ h.ordered (fun p hp => le_of_eq (h.lastEq p hp))
  · intro p hp
    simp only [List.getLast?_concat, Option.some.injEq] at hp
    subst hp
    simp [newPathAt]
  · intro hc
    simp at hc
  · intro p hp
    rcases List.mem_append.mp hp with hin | hnew
    · exact h.posCount p hin
    · simp only [List.mem_singleton] at hnew
      subst hnew
      exact le_refl 1

/-- The branch of `addPoint` that appends a fresh point to the current
sub-path preserves the invariant. -/
theorem wf_appendPointBranch (c : nvgPathCache) (path : nvgPath) (pt : nvgPoint)
    (hl : c.paths.getLast? = some path) (h : CacheWF c) :
    CacheWF
      { c with
        points := c.points ++ [pt],
        paths := c.paths.dropLast ++ [{ path with count := path.count + 1 }] } := by
  have hne := getLast?_ne_nil _ _ hl
  constructor
  · exact ordered_setLast _ _ hne h.ordered
      (fun p hp => by rw [hl] at hp; injection hp with hp; rw [← hp])
  · intro p hp
    simp only [List.getLast?_concat, Option.some.injEq] at hp
    subst hp
    simp only [List.length_append, List.length_singleton]
    have := h.lastEq path hl
    omega
  · intro hc
    simp at hc
  · intro p hp
    rcases List.mem_append.mp hp with hin | hnew
    · exact h.posCount p (List.dropLast_subset _ hin)
    · simp only [List.mem_singleton] at hnew
      subst hnew
      simp

theorem wf_addPoint (c : nvgPathCache) (x y : ℚ) (fl : ℕ) (tol : ℚ)
    (h : CacheWF c) : CacheWF (c.addPoint x y fl tol) := by
  unfold nvgPathCache.addPoint
  cases hl : c.paths.getLast? with
  | none => exact h
  | some path =>
    have hne := getLast?_ne_nil _ _ hl
    simp only
    split
    · rename_i hcond
      split
      · constructor
        · exact h.ordered
        · intro p hp
          show p.first + p.count = (setLast c.points _).length
          unfold setLast
          rw [setLastP_length _ _ hcond.2]
          exact h.lastEq p hp
        · intro hc
          exact absurd hc hne
        · exact h.posCount
      · exact wf_appendPointBranch c path _ hl h
    · exact wf_appendPointBranch c path _ hl h

/-- Replacing the last path with one of identical window preserves the
invariant (covers `closePath` and `pathWinding`). -/
theorem wf_setLastSame (c : nvgPathCache) (path x : nvgPath)
    (hl : c.paths.getLast? = some path) (h : CacheWF c)
    (hfirst : x.first = path.first) (hcount : x.count = path.count) :
    CacheWF { c with paths := c.paths.dropLast ++ [x] } := by
  have hne := getLast?_ne_nil _ _ hl
  constructor
  · refine ordered_setLast _ _ hne h.ordered ?_
    intro p hp
    rw [hl] at hp
    injection hp with hp
    rw [← hp]
    exact hfirst
  · intro p hp
    simp only [List.getLast?_concat, Option.some.injEq] at hp
    subst hp
    rw [hfirst, hcount]
    exact h.lastEq path hl
  · intro hc
    simp at hc
  · intro p hp
    rcases List.mem_append.mp hp with hin | hnew
    · exact h.posCount p (List.dropLast_subset _ hin)
    · simp only [List.mem_singleton] at hnew
      subst hnew
      rw [hcount]
      refine h.posCount path ?_
      obtain ⟨hlt, hval⟩ := List.getElem?_eq_some_iff.mp (getLast?_as_getElem _ _ hl)
      rw [← hval]
      exact List.getElem_mem hlt

theorem wf_closePath (c : nvgPathCache) (h : CacheWF c) : CacheWF c.closePath := by
  unfold nvgPathCache.closePath
  cases hl : c.paths.getLast? with
  | none => exact h
  | some path => exact wf_setLastSame c path _ hl h rfl rfl

theorem wf_pathWinding (c : nvgPathCache) (w : ℚ) (h : CacheWF c) :
    CacheWF (c.pathWinding w) := by
  unfold nvgPathCache.pathWinding
  cases hl : c.paths.getLast? with
  | none => exact h
  | some path => exact wf_setLastSame c path _ hl h rfl rfl

theorem wf_foldl_addPoint (c : nvgPathCache) (l : List (ℚ × ℚ × ℕ)) (tol : ℚ)
    (h : CacheWF c) :
    CacheWF (l.foldl (fun c p => c.addPoint p.1 p.2.1 p.2.2 tol) c) := by
  induction l generalizing c with
  | nil => exact h
  | cons p rest ih => exact ih _ (wf_addPoint _ _ _ _ _ h)

theorem wf_tesselateBezier (c : nvgPathCache) (x1 y1 x2 y2 x3 y3 x4 y4 : ℚ)
    (level : ℕ) (fl : ℕ) (tt dt : ℚ) (h : CacheWF c) :
    CacheWF (c.tesselateBezier x1 y1 x2 y2 x3 y3 x4 y4 level fl tt dt) :=
  wf_foldl_addPoint c _ dt h

theorem wf_commandLoop (tt dt : ℚ) (l : List Cmd) (c : nvgPathCache)
    (h : CacheWF c) : CacheWF (commandLoop tt dt c l) := by
  induction l generalizing c with
  | nil => exact h
  | cons cmd rest ih =>
    cases cmd with
    | moveTo x y => exact ih _ (wf_moveToStep c x y _ _ h)
    | lineTo x y => exact ih _ (wf_addPoint c x y _ _ h)
    | bezierTo c1x c1y c2x c2y x y =>
      rw [commandLoop_bezierTo]
      cases c.lastPoint with
      | none => exact ih _ h
      | some last => exact ih _ (wf_tesselateBezier c _ _ _ _ _ _ _ _ _ _ _ _ h)
    | close => exact ih _ (wf_closePath c h)
    | winding w => exact ih _ (wf_pathWinding c w h)

theorem wf_emptyCache : CacheWF emptyCache := by
  constructor
  · intro i p q hp hq
    simp [emptyCache] at hp
  · intro p hp
    simp [emptyCache] at hp
  · intro hc
    rfl
  · intro p hp
    simp [emptyCache] at hp

/-- A concrete oracle instantiation used by witnesses; its values are exact
where the witness computations consult it. -/
def ffW : FloatFuns where
  sqrt q := if q = 16 then 4 else if q = 1 then 1 else 0
  sinCos _ := (0, 1)
  acos _ := 0
  tan _ := 1 / 1000000
  atan2 _ _ := 0

/-- A concrete context with one default state and standard tolerances
(device pixel ratio 1), used by witnesses. -/
def ctxW : Context where
  commands := []
  commandX := 0
  commandY := 0
  states := [zeroState]
  cache := emptyCache
  tessTol := 1 / 4
  distTol := 1 / 100
  fringeWidth := 1
  devicePxRatio := 1
  drawCallCount := 0
  fillTriCount := 0
  strokeTriCount := 0

/-- C8: on a nonempty state stack, `Restore` pops when more than one state
is present and is a no-op at depth one; it never errors and never empties
the stack, so the depth afterwards is `max (depth - 1) 1`. -/
theorem claim_C8 (ctx : Context) (h : 1 ≤ ctx.states.length) :
    ctx.Restore.states.length = max (ctx.states.length - 1) 1 := by
  unfold Context.Restore
  by_cases hgt : ctx.states.length > 1
  · simp [hgt, List.length_dropLast]
    omega
  · simp [hgt]
    omega

/-- Witness for C8 at a concrete two-state stack. -/
theorem claim_C8_witness :
    ({ ctxW with states := [zeroState, zeroState] } : Context).Restore.states.length =
      max (([zeroState, zeroState] : List nvgState).length - 1) 1 :=
  claim_C8 { ctxW with states := [zeroState, zeroState] } (by simp)

/-- C9: `Save` pushes a copy of the top state (the zero default when the
stack is empty) and is a silent no-op once the configured maximum depth is
reached, leaving the context unchanged. -/
theorem claim_C9 (ctx : Context) :
    (ctx.states.length < nvgMaxStates →
       ctx.Save.states = ctx.states ++ [ctx.states.getLastD zeroState]) ∧
    (nvgMaxStates ≤ ctx.states.length → ctx.Save = ctx) := by
  constructor
  · intro h
    unfold Context.Save
    by_cases hz : ctx.states.length > 0
    · simp [Nat.not_le.mpr h, hz]
    · have : ctx.states = [] := List.length_eq_zero.mp (by omega)
      simp [Nat.not_le.mpr h, this, nvgMaxStates]
  · intro h
    unfold Context.Save
    simp [h]

/-- Witness for C9: both the push below the depth limit and the no-op at
the limit, at concrete stacks. -/
theorem claim_C9_witness :
    ctxW.Save.states = [zeroState] ++ [zeroState] ∧
    ({ ctxW with states := List.replicate 32 zeroState } : Context).Save =
      { ctxW with states := List.replicate 32 zeroState } := by
  refine ⟨?_, ?_⟩
  · exact (claim_C9 ctxW).1 (by simp [ctxW, nvgMaxStates])
  · exact (claim_C9 _).2 (by simp [nvgMaxStates])

/-- C2: every path command transforms its position operands through the
current transform at the moment of recording — `MoveTo`/`LineTo` their one
point, `BezierTo` both control points and the endpoint, `ClosePath` and
`PathWinding` nothing — and every later transform change (`Translate`,
`Rotate`, `Scale`, `SetTransform`, `ResetTransform`) leaves the recorded
command buffer unchanged. -/
theorem claim_C2 (ff : FloatFuns) (ctx : Context)
    (x y c1x c1y c2x c2y ex ey w a b angle sx sy : ℚ) (t : TransformMatrix) :
    (ctx.MoveTo x y).commands = ctx.commands ++
      [.moveTo (ctx.getState.xform.TransformPoint x y).1
        (ctx.getState.xform.TransformPoint x y).2] ∧
    (ctx.LineTo x y).commands = ctx.commands ++
      [.lineTo (ctx.getState.xform.TransformPoint x y).1
        (ctx.getState.xform.TransformPoint x y).2] ∧
    (ctx.BezierTo c1x c1y c2x c2y ex ey).commands = ctx.commands ++
      [.bezierTo
        (ctx.getState.xform.TransformPoint c1x c1y).1
        (ctx.getState.xform.TransformPoint c1x c1y).2
        (ctx.getState.xform.TransformPoint c2x c2y).1
        (ctx.getState.xform.TransformPoint c2x c2y).2
        (ctx.getState.xform.TransformPoint ex ey).1
        (ctx.getState.xform.TransformPoint ex ey).2] ∧
    ctx.ClosePath.commands = ctx.commands ++ [.close] ∧
    (ctx.PathWinding w).commands = ctx.commands ++ [.winding w] ∧
    (ctx.Translate a b).commands = ctx.commands ∧
    (ctx.Rotate ff angle).commands = ctx.commands ∧
    (ctx.Scale sx sy).commands = ctx.commands ∧
    (ctx.SetTransform t).commands = ctx.commands ∧
    ctx.ResetTransform.commands = ctx.commands := by
  exact ⟨rfl, rfl, rfl, rfl, rfl, rfl, rfl, rfl, rfl, rfl⟩

theorem clampF_nonneg (a mx : ℚ) (h : 0 ≤ mx) : 0 ≤ clampF a 0 mx := by
  unfold clampF
  split <;> [linarith; skip]
  split <;> linarith

theorem clampF_le (a mn mx : ℚ) (h : mn ≤ mx) : clampF a mn mx ≤ mx := by
  unfold clampF
  split <;> [linarith; skip]
  split <;> linarith

theorem clampF_eq_self (a mn mx : ℚ) (h1 : mn ≤ a) (h2 : a ≤ mx) :
    clampF a mn mx = a := by
  unfold clampF
  split <;> [linarith; skip]
  split <;> [linarith; rfl]

/-- C10: the effective stroke width of `Stroke` is the requested width times
the transform's average scale, clamped to `[0, 200]`, before the sub-fringe
thinness adjustment; whenever the fringe width itself is at most 200, the
width handed to the backend stays at most 200 regardless of the requested
width or the transform. -/
theorem claim_C10 (ff : FloatFuns) (edgeAA : Bool) (ctx ctx' : Context)
    (call : StrokeCall) (h : ctx.Stroke ff edgeAA = some (ctx', call)) :
    strokeScaledWidth ff ctx.getState =
      clampF (ctx.getState.strokeWidth * ctx.getState.xform.getAverageScale ff) 0 200 ∧
    0 ≤ strokeScaledWidth ff ctx.getState ∧
    strokeScaledWidth ff ctx.getState ≤ 200 ∧
    call.strokeWidth =
      (if strokeScaledWidth ff ctx.getState < ctx.fringeWidth then ctx.fringeWidth
       else strokeScaledWidth ff ctx.getState) ∧
    (ctx.fringeWidth ≤ 200 → call.strokeWidth ≤ 200) := by
  have hw : call.strokeWidth =
      (if strokeScaledWidth ff ctx.getState < ctx.fringeWidth then ctx.fringeWidth
       else strokeScaledWidth ff ctx.getState) := by
    simp only [Context.Stroke] at h
    split at h
    · simp at h
    · simp only [Option.some.injEq, Prod.mk.injEq] at h
      rw [← h.2]
  refine ⟨rfl, clampF_nonneg _ _ (by norm_num), clampF_le _ _ _ (by norm_num), hw, ?_⟩
  intro hfr
  rw [hw]
  split
  · exact hfr
  · exact clampF_le _ _ _ (by norm_num)

/-- The context produced by a `Stroke` on `ctxW` (used by witnesses). -/
def ctxWS : Context :=
  { ctxW with cache := ⟨[], [], (1000000, 1000000, -1000000, -1000000)⟩ }

/-- The backend call produced by a `Stroke` on `ctxW` (used by witnesses). -/
def callWS : StrokeCall :=
  { paint := zeroState.stroke, scissor := zeroState.scissor, fringe := 1,
    strokeWidth := 1, paths := [] }

/-- Witness for C10 at a concrete stroke call. -/
theorem claim_C10_witness :
    0 ≤ strokeScaledWidth ffW ctxW.getState ∧
    strokeScaledWidth ffW ctxW.getState ≤ 200 ∧
    callWS.strokeWidth ≤ 200 := by
  have hc : Context.Stroke ffW false ctxW = some (ctxWS, callWS) := by
    simp only [Context.Stroke, ctxW, ctxWS, callWS, Context.getState, zeroState,
      strokeScaledWidth, TransformMatrix.getAverageScale, ffW, clampF,
      flattenPaths, commandLoop_nil, emptyCache, nvgPathCache.expandStroke]
    norm_num
  have h := claim_C10 ffW false ctxW ctxWS callWS hc
  exact ⟨h.2.1, h.2.2.1, h.2.2.2.2 (by norm_num [ctxW])⟩

/-! ### Arc structure lemmas -/

/-- The point the `Arc` loop emits for segment index `i`. -/
def arcPoint (ff : FloatFuns) (cx cy r a0 da : ℚ) (n : ℕ) (i : ℕ) : ℚ × ℚ :=
  (cx + (ff.sinCos (a0 + da * i / n)).2 * r, cy + (ff.sinCos (a0 + da * i / n)).1 * r)

/-- The tangent handle the `Arc` loop computes for segment index `i`. -/
def arcTan (ff : FloatFuns) (r a0 da : ℚ) (n : ℕ) (kappa : ℚ) (i : ℕ) : ℚ × ℚ :=
  (-(ff.sinCos (a0 + da * i / n)).1 * r * kappa,
   (ff.sinCos (a0 + da * i / n)).2 * r * kappa)

theorem arcLoop_eq (ff : FloatFuns) (cx cy r a0 da : ℚ) (n : ℕ) (kappa : ℚ)
    (mIL : Bool) (i : ℕ) (px py tx ty : ℚ) :
    arcLoop ff cx cy r a0 da n kappa mIL i px py tx ty =
      if i > n then [] else
        (if i = 0 then
          [if mIL then
            Cmd.lineTo (arcPoint ff cx cy r a0 da n i).1 (arcPoint ff cx cy r a0 da n i).2
          else
            Cmd.moveTo (arcPoint ff cx cy r a0 da n i).1 (arcPoint ff cx cy r a0 da n i).2]
        else
          [Cmd.bezierTo (px + tx) (py + ty)
            ((arcPoint ff cx cy r a0 da n i).1 - (arcTan ff r a0 da n kappa i).1)
            ((arcPoint ff cx cy r a0 da n i).2 - (arcTan ff r a0 da n kappa i).2)
            (arcPoint ff cx cy r a0 da n i).1 (arcPoint ff cx cy r a0 da n i).2]) ++
        arcLoop ff cx cy r a0 da n kappa mIL (i + 1)
          (arcPoint ff cx cy r a0 da n i).1 (arcPoint ff cx cy r a0 da n i).2
          (arcTan ff r a0 da n kappa i).1 (arcTan ff r a0 da n kappa i).2 := by
  rw [arcLoop]
  rfl

theorem arcLoop_length (ff : FloatFuns) (cx cy r a0 da : ℚ) (n : ℕ) (kappa : ℚ)
    (mIL : Bool) :
    ∀ (k i : ℕ) (px py tx ty : ℚ), n + 1 - i = k →
      (arcLoop ff cx cy r a0 da n kappa mIL i px py tx ty).length = k := by
  intro k
  induction k with
  | zero =>
    intro i px py tx ty hk
    rw [arcLoop_eq]
    rw [if_pos (by omega)]
    rfl
  | succ k ih =>
    intro i px py tx ty hk
    rw [arcLoop_eq]
    rw [if_neg (by omega)]
    rw [List.length_append, ih (i + 1) _ _ _ _ (by omega)]
    split <;> simp only [List.length_singleton] <;> omega

theorem arcLoop_tags_tail (ff : FloatFuns) (cx cy r a0 da : ℚ) (n : ℕ) (kappa : ℚ)
    (mIL : Bool) :
    ∀ (k i : ℕ) (px py tx ty : ℚ), n + 1 - i = k → 1 ≤ i →
      (arcLoop ff cx cy r a0 da n kappa mIL i px py tx ty).map Cmd.tag =
        List.replicate k 2 := by
  intro k
  induction k with
  | zero =>
    intro i px py tx ty hk hi
    rw [arcLoop_eq, if_pos (by omega)]
    rfl
  | succ k ih =>
    intro i px py tx ty hk hi
    rw [arcLoop_eq, if_neg (by omega), if_neg (by omega)]
    rw [List.map_append, ih (i + 1) _ _ _ _ (by omega) (by omega)]
    rfl

theorem arcLoop_head (ff : FloatFuns) (cx cy r a0 da : ℚ) (n : ℕ) (kappa : ℚ)
    (mIL : Bool) (px py tx ty : ℚ) :
    (arcLoop ff cx cy r a0 da n kappa mIL 0 px py tx ty).head? =
      some (if mIL then
        Cmd.lineTo (arcPoint ff cx cy r a0 da n 0).1 (arcPoint ff cx cy r a0 da n 0).2
      else
        Cmd.moveTo (arcPoint ff cx cy r a0 da n 0).1 (arcPoint ff cx cy r a0 da n 0).2) := by
  rw [arcLoop_eq, if_neg (by omega), if_pos rfl]
  rfl

theorem arcLoop_last (ff : FloatFuns) (cx cy r a0 da : ℚ) (n : ℕ) (kappa : ℚ)
    (mIL : Bool) :
    ∀ (k i : ℕ) (px py tx ty : ℚ), n + 1 - i = k → i ≤ n →
      ((arcLoop ff cx cy r a0 da n kappa mIL i px py tx ty).getLast?).map Cmd.endPoint =
        some (arcPoint ff cx cy r a0 da n n) := by
  intro k
  induction k with
  | zero =>
    intro i px py tx ty hk hi
    omega
  | succ k ih =>
    intro i px py tx ty hk hi
    rw [arcLoop_eq, if_neg (by omega)]
    by_cases hlast : i = n
    · have hk0 : n + 1 - (i + 1) = 0 := by omega
      have hempty : arcLoop ff cx cy r a0 da n kappa mIL (i + 1)
          (arcPoint ff cx cy r a0 da n i).1 (arcPoint ff cx cy r a0 da n i).2
          (arcTan ff r a0 da n kappa i).1 (arcTan ff r a0 da n kappa i).2 = [] := by
        rw [arcLoop_eq, if_pos (by omega)]
      rw [hempty, List.append_nil, hlast]
      split
      · split <;> rfl
      · rfl
    · rw [List.getLast?_append]
      have h2 := ih (i + 1) (arcPoint ff cx cy r a0 da n i).1
        (arcPoint ff cx cy r a0 da n i).2 (arcTan ff r a0 da n kappa i).1
        (arcTan ff r a0 da n kappa i).2 (by omega) (by omega)
      revert h2
      cases (arcLoop ff cx cy r a0 da n kappa mIL (i + 1)
          (arcPoint ff cx cy r a0 da n i).1 (arcPoint ff cx cy r a0 da n i).2
          (arcTan ff r a0 da n kappa i).1 (arcTan ff r a0 da n kappa i).2).getLast? with
      | none => intro h2; simp at h2
      | some y => intro h2; simpa using h2

theorem PI_pos : (0 : ℚ) < PI := by norm_num [PI]

theorem arcClampDA_cw (a0 a1 : ℚ) :
    0 ≤ arcClampDA a0 a1 .clockwise ∧ arcClampDA a0 a1 .clockwise ≤ PI * 2 := by
  have hpi := PI_pos
  simp only [arcClampDA, absF]
  split_ifs with h1 h2
  · exact ⟨by linarith, le_refl _⟩
  · have habs : |a1 - a0| < PI * 2 := lt_of_not_le h1
    have hlow : -(PI * 2) < a1 - a0 := (abs_lt.mp habs).1
    have hceil : (⌈-(a1 - a0) / (PI * 2)⌉₊ : ℚ) = 1 := by
      have h1' : ⌈-(a1 - a0) / (PI * 2)⌉₊ = 1 := by
        rw [Nat.ceil_eq_iff (by norm_num)]
        constructor
        · push_cast
          exact div_pos (by linarith) (by linarith)
        · push_cast
          rw [div_le_one (by linarith)]
          linarith
      rw [h1']
      norm_num
    rw [hceil]
    constructor <;> linarith
  · have habs : |a1 - a0| < PI * 2 := lt_of_not_le h1
    have hup : a1 - a0 < PI * 2 := (abs_lt.mp habs).2
    constructor <;> [linarith; linarith]

theorem arcClampDA_ccw (a0 a1 : ℚ) :
    -(PI * 2) ≤ arcClampDA a0 a1 .counterClockwise ∧
      arcClampDA a0 a1 .counterClockwise ≤ 0 := by
  have hpi := PI_pos
  simp only [arcClampDA, absF]
  split_ifs with h1 h2
  · exact ⟨le_refl _, by linarith⟩
  · have habs : |a1 - a0| < PI * 2 := lt_of_not_le h1
    have hup : a1 - a0 < PI * 2 := (abs_lt.mp habs).2
    have hceil : (⌈(a1 - a0) / (PI * 2)⌉₊ : ℚ) = 1 := by
      have h1' : ⌈(a1 - a0) / (PI * 2)⌉₊ = 1 := by
        rw [Nat.ceil_eq_iff (by norm_num)]
        constructor
        · push_cast
          exact div_pos (by linarith) (by linarith)
        · push_cast
          rw [div_le_one (by linarith)]
          linarith
      rw [h1']
      norm_num
    rw [hceil]
    constructor <;> linarith
  · have habs : |a1 - a0| < PI * 2 := lt_of_not_le h1
    have hlow : -(PI * 2) < a1 - a0 := (abs_lt.mp habs).1
    constructor <;> [linarith; linarith]

theorem arcNDivs_bounds (da : ℚ) : 1 ≤ arcNDivs da ∧ arcNDivs da ≤ 5 := by
  unfold arcNDivs clampI
  split_ifs <;> omega

/-- The per-segment sweep bound: under the one-turn clamp, the sweep is
strictly below `(nDivs + 1/2)` right angles, i.e. each of the `nDivs`
segments spans strictly less than `90° + 45°/nDivs ≤ 135°`. -/
theorem arcSeg_bound (da : ℚ) (h : absF da ≤ PI * 2) :
    absF da < (arcNDivs da : ℚ) * (PI * (1 / 2)) + PI * (1 / 4) := by
  have hpi := PI_pos
  have hA : (0 : ℚ) ≤ absF da := abs_nonneg da
  set A := absF da with hAdef
  have hq4 : A / (PI * (1 / 2)) ≤ 4 := by
    rw [div_le_iff (by linarith)]
    linarith
  have hq0 : 0 ≤ A / (PI * (1 / 2)) := div_nonneg hA (by linarith)
  set q := A / (PI * (1 / 2)) with hqdef
  have hAq : A = q * (PI * (1 / 2)) := by
    rw [hqdef, div_mul_cancel₀]
    linarith
  have hflow : (⌊q + 1 / 2⌋ : ℚ) ≤ q + 1 / 2 := Int.floor_le _
  have hfup : q + 1 / 2 < (⌊q + 1 / 2⌋ : ℚ) + 1 := Int.lt_floor_add_one _
  have hf4 : ⌊q + 1 / 2⌋ ≤ 4 := by
    have : ⌊q + 1 / 2⌋ < 5 := by
      rw [Int.floor_lt]
      push_cast
      linarith
    omega
  have hf0 : 0 ≤ ⌊q + 1 / 2⌋ := by
    rw [Int.le_floor]
    push_cast
    linarith
  unfold arcNDivs clampI
  rw [← hAdef, ← hqdef]
  split_ifs with hlt hgt
  · -- floor < 1, so the divisor clamps up to 1; then q < 1/2
    have hq12 : q < 1 / 2 := by
      have hle : (⌊q + 1 / 2⌋ : ℚ) ≤ 0 := by
        exact_mod_cast (by omega : ⌊q + 1 / 2⌋ ≤ 0)
      linarith
    rw [hAq]
    push_cast
    nlinarith
  · omega
  · -- divisor equals the floor
    have hcast : ((⌊q + 1 / 2⌋.toNat : ℕ) : ℚ) = (⌊q + 1 / 2⌋ : ℚ) := by
      exact_mod_cast Int.toNat_of_nonneg hf0
    rw [hcast, hAq]
    nlinarith

/-- `transformCmds` preserves the opcode tag sequence. -/
theorem transformCmds_tags (xform : TransformMatrix) (l : List Cmd) :
    (transformCmds xform l).map Cmd.tag = l.map Cmd.tag := by
  induction l with
  | nil => rfl
  | cons c rest ih =>
    cases c <;> simp [transformCmds, Cmd.tag, ih]

/-- The tags of the full `Arc` record list: one move record (line variant
when the buffer is nonempty) followed by one Bézier record per segment. -/
theorem arcLoop_tags_zero (ff : FloatFuns) (cx cy r a0 da : ℚ) (n : ℕ) (kappa : ℚ)
    (mIL : Bool) (px py tx ty : ℚ) :
    (arcLoop ff cx cy r a0 da n kappa mIL 0 px py tx ty).map Cmd.tag =
      (if mIL then 1 else 0) :: List.replicate n 2 := by
  rw [arcLoop_eq, if_neg (by omega), if_pos rfl]
  rw [List.map_append]
  rw [arcLoop_tags_tail ff cx cy r a0 da n kappa mIL n 1 _ _ _ _ (by omega) (by omega)]
  cases mIL <;> rfl

/-- A render state requesting a sub-fringe stroke width under a 4× scale
(used by the C5 counterexample). -/
def stateC5 : nvgState :=
  { zeroState with
    strokeWidth := 1 / 2
    xform := ⟨4, 0, 0, 4, 0, 0⟩
    alpha := 1
    stroke := { zeroState.stroke with
      innerColor := ⟨0, 0, 0, 1⟩, outerColor := ⟨0, 0, 0, 1⟩ } }

/-- A context holding `stateC5` (used by the C5 counterexample). -/
def ctxC5 : Context := { ctxW with states := [stateC5] }

/-- C5 counterexample: with fringe width 1, a requested stroke width of 1/2
(strictly below one fringe width) under a uniform 4× transform produces NO
coverage scaling — both paint alphas are handed to the backend unchanged
(1), while the claim predicts the factor `(1/2 / 1)^2 = 1/4`; the trigger of
the scaling is the transformed width `clampF(1/2·4,0,200) = 2`, not the
requested width. -/
theorem claim_C5_counterexample :
    ctxC5.getState.strokeWidth < ctxC5.fringeWidth ∧
    (ctxC5.Stroke ffW false).map
        (fun r => (r.2.paint.innerColor.A, r.2.paint.outerColor.A, r.2.strokeWidth)) =
      some (1, 1, 2) ∧
    ctxC5.getState.stroke.innerColor.A *
        ((ctxC5.getState.strokeWidth / ctxC5.fringeWidth) *
         (ctxC5.getState.strokeWidth / ctxC5.fringeWidth)) ≠ 1 := by
  refine ⟨by norm_num [ctxC5, ctxW, stateC5, zeroState, Context.getState], ?_, ?_⟩
  · simp only [Context.Stroke, ctxC5, stateC5, ctxW, Context.getState, zeroState,
      strokeScaledWidth, TransformMatrix.getAverageScale, ffW, clampF,
      flattenPaths, commandLoop_nil, emptyCache, nvgPathCache.expandStroke]
    norm_num
  · norm_num [ctxC5, ctxW, stateC5, zeroState, Context.getState]

/-- C5 as amended: the coverage emulation of `Stroke` is keyed on the
*effective* stroke width (requested width times the transform's average
scale, clamped to `[0,200]`), not the requested width.  When the effective
width is below one fringe width, both paint alphas are scaled by exactly
`(effectiveWidth/fringeWidth)^2` (and then by the global alpha) and the
width handed on is raised to exactly one fringe width; otherwise the alphas
receive only the global-alpha factor and the width is passed through. -/
theorem claim_C5_amended (ff : FloatFuns) (edgeAA : Bool) (ctx ctx' : Context)
    (call : StrokeCall) (h : ctx.Stroke ff edgeAA = some (ctx', call))
    (hf : 0 < ctx.fringeWidth) :
    (strokeScaledWidth ff ctx.getState < ctx.fringeWidth →
      call.paint.innerColor.A = ctx.getState.stroke.innerColor.A *
        ((strokeScaledWidth ff ctx.getState / ctx.fringeWidth) *
         (strokeScaledWidth ff ctx.getState / ctx.fringeWidth)) * ctx.getState.alpha ∧
      call.paint.outerColor.A = ctx.getState.stroke.outerColor.A *
        ((strokeScaledWidth ff ctx.getState / ctx.fringeWidth) *
         (strokeScaledWidth ff ctx.getState / ctx.fringeWidth)) * ctx.getState.alpha ∧
      call.strokeWidth = ctx.fringeWidth) ∧
    (ctx.fringeWidth ≤ strokeScaledWidth ff ctx.getState →
      call.paint.innerColor.A = ctx.getState.stroke.innerColor.A * ctx.getState.alpha ∧
      call.paint.outerColor.A = ctx.getState.stroke.outerColor.A * ctx.getState.alpha ∧
      call.strokeWidth = strokeScaledWidth ff ctx.getState) := by
  have halpha : strokeScaledWidth ff ctx.getState < ctx.fringeWidth →
      clampF (strokeScaledWidth ff ctx.getState / ctx.fringeWidth) 0 1 =
        strokeScaledWidth ff ctx.getState / ctx.fringeWidth := by
    intro hcov
    have h0 : 0 ≤ strokeScaledWidth ff ctx.getState :=
      clampF_nonneg _ _ (by norm_num)
    refine clampF_eq_self _ _ _ (div_nonneg h0 hf.le) ?_
    exact le_of_lt ((div_lt_one hf).mpr hcov)
  simp only [Context.Stroke] at h
  split at h
  · simp at h
  · simp only [Option.some.injEq, Prod.mk.injEq] at h
    rw [← h.2]
    constructor
    · intro hcov
      simp only [if_pos hcov, halpha hcov]
      refine ⟨?_, ?_, ?_⟩ <;> first | trivial | ring
    · intro hge
      have hcov : ¬ strokeScaledWidth ff ctx.getState < ctx.fringeWidth :=
        not_lt.mpr hge
      simp only [if_neg hcov]
      refine ⟨?_, ?_, ?_⟩ <;> first | trivial | ring

/-- The context produced by the C5 counterexample stroke. -/
def ctxC5S : Context :=
  { ctxC5 with cache := ⟨[], [], (1000000, 1000000, -1000000, -1000000)⟩ }

/-- The backend call produced by the C5 counterexample stroke. -/
def callC5 : StrokeCall :=
  { paint := stateC5.stroke, scissor := zeroState.scissor, fringe := 1,
    strokeWidth := 2, paths := [] }

/-- Witness for the amended C5 at the concrete counterexample context (the
effective width 2 is not below the fringe width 1, so the alphas receive
only the global-alpha factor and the width passes through). -/
theorem claim_C5_witness :
    callC5.paint.innerColor.A = ctxC5.getState.stroke.innerColor.A * ctxC5.getState.alpha ∧
    callC5.paint.outerColor.A = ctxC5.getState.stroke.outerColor.A * ctxC5.getState.alpha ∧
    callC5.strokeWidth = strokeScaledWidth ffW ctxC5.getState := by
  have hc : ctxC5.Stroke ffW false = some (ctxC5S, callC5) := by
    simp only [Context.Stroke, ctxC5, ctxC5S, callC5, stateC5, ctxW, Context.getState,
      zeroState, strokeScaledWidth, TransformMatrix.getAverageScale, ffW, clampF,
      flattenPaths, commandLoop_nil, emptyCache, nvgPathCache.expandStroke]
    norm_num
  refine (claim_C5_amended ffW false ctxC5 ctxC5S callC5 hc ?_).2 ?_
  · norm_num [ctxC5, ctxW]
  · norm_num [ctxC5, ctxW, stateC5, zeroState, Context.getState, strokeScaledWidth,
      TransformMatrix.getAverageScale, ffW, clampF]

/-- C6: on a non-empty path, every degenerate `ArcTo` case — current point
coincident with `(x1,y1)` within the distance tolerance, `(x1,y1)`
coincident with `(x2,y2)`, the three points collinear within the tolerance,
radius below the tolerance, or a computed tangent distance above 10000 —
records exactly a `LineTo(x1,y1)` and no arc geometry; the call never
errors. -/
theorem claim_C6 (ff : FloatFuns) (ctx : Context) (x1 y1 x2 y2 radius : ℚ)
    (hne : ¬ ctx.commands = [])
    (hdeg :
      (ptEquals ctx.commandX ctx.commandY x1 y1 ctx.distTol ∨
       ptEquals x1 y1 x2 y2 ctx.distTol ∨
       distPtSeg x1 y1 ctx.commandX ctx.commandY x2 y2 < ctx.distTol * ctx.distTol ∨
       radius < ctx.distTol) ∨
      radius / ff.tan (ff.acos
          ((normalize ff (ctx.commandX - x1) (ctx.commandY - y1)).2.1 *
             (normalize ff (x2 - x1) (y2 - y1)).2.1 +
           (normalize ff (ctx.commandX - x1) (ctx.commandY - y1)).2.2 *
             (normalize ff (x2 - x1) (y2 - y1)).2.2) / 2) > 10000) :
    ctx.ArcTo ff x1 y1 x2 y2 radius = ctx.LineTo x1 y1 := by
  simp only [Context.ArcTo]
  rw [if_neg hne]
  by_cases h4 : (ptEquals ctx.commandX ctx.commandY x1 y1 ctx.distTol ∨
      ptEquals x1 y1 x2 y2 ctx.distTol ∨
      distPtSeg x1 y1 ctx.commandX ctx.commandY x2 y2 < ctx.distTol * ctx.distTol ∨
      radius < ctx.distTol)
  · rw [if_pos h4]
  · rw [if_neg h4]
    have h5 := hdeg.resolve_left h4
    rw [if_pos h5]

/-- Witness for C6: three collinear points after a `MoveTo(0,0)` degenerate
to a plain `LineTo(1,0)`. -/
theorem claim_C6_witness :
    (ctxW.MoveTo 0 0).ArcTo ffW 1 0 2 0 1 = (ctxW.MoveTo 0 0).LineTo 1 0 := by
  refine claim_C6 ffW (ctxW.MoveTo 0 0) 1 0 2 0 1 ?_ (Or.inl (Or.inr (Or.inr (Or.inl ?_))))
  · simp [Context.MoveTo, Context.appendCommand, ctxW, transformCmds]
  · have hx : (ctxW.MoveTo 0 0).commandX = 0 := by
      norm_num [Context.MoveTo, Context.appendCommand, ctxW, encodeCmds, Cmd.encode]
    have hy : (ctxW.MoveTo 0 0).commandY = 0 := by
      norm_num [Context.MoveTo, Context.appendCommand, ctxW, encodeCmds, Cmd.encode]
    have ht : (ctxW.MoveTo 0 0).distTol = 1 / 100 := rfl
    rw [hx, hy, ht]
    norm_num [distPtSeg]

/-- C4 counterexample: `Arc(0,0,1,0,0.7π,Clockwise)` sweeps `0.7π = 126°`
but the divisor `clampI(int(|da|/(π/2)+0.5),1,5)` rounds `1.4+0.5` down to
`1`, so the whole sweep is emitted as a SINGLE cubic Bézier segment spanning
more than 90° — the claim's "each spanning at most 90°" fails. -/
theorem claim_C4_counterexample :
    arcNDivs (arcClampDA 0 (7 * PI / 10) .clockwise) = 1 ∧
    (ctxW.Arc ffW 0 0 1 0 (7 * PI / 10) .clockwise).commands.map Cmd.tag = [0, 2] ∧
    arcClampDA 0 (7 * PI / 10) .clockwise /
        (arcNDivs (arcClampDA 0 (7 * PI / 10) .clockwise) : ℚ) > PI * (1 / 2) := by
  have hda : arcClampDA 0 (7 * PI / 10) .clockwise = 7 * PI / 10 := by
    simp only [arcClampDA, absF]
    norm_num [PI, abs_of_nonneg]
  have hn0 : arcNDivs (7 * PI / 10) = 1 := by
    unfold arcNDivs clampI
    norm_num [PI, absF, abs_of_nonneg]
  refine ⟨by rw [hda]; exact hn0, ?_, ?_⟩
  · show (ctxW.appendCommand _).commands.map Cmd.tag = [0, 2]
    simp only [Context.appendCommand, ctxW]
    rw [List.nil_append, transformCmds_tags, arcLoop_tags_zero]
    simp [hda, hn0]
  · rw [hda, hn0]
    norm_num [PI]

/-- C4 as amended: `Arc` clamps the sweep to at most one full turn in the
requested direction and splits it into
`nDivs = clampI(int(|da|/(π/2)+0.5),1,5) ∈ [1,5]` cubic Bézier segments —
one Bézier record per segment after an initial record that is a `MoveTo`
exactly when the command buffer is empty and a `LineTo` otherwise.  Because
the divisor rounds to nearest, each segment spans `|da|/nDivs`, which is
strictly below `90° + 45°/nDivs` (so below 135°) but can exceed 90°.
`Arc(cx,cy,r,0,2π,Clockwise)` yields 4 segments covering the full sweep
whose final endpoint coincides with the first point (the trigonometric
oracle being 2π-periodic). -/
theorem claim_C4_amended (ff : FloatFuns) (ctx : Context) (cx cy r a0 a1 : ℚ)
    (dir : Direction) :
    1 ≤ arcNDivs (arcClampDA a0 a1 dir) ∧
    arcNDivs (arcClampDA a0 a1 dir) ≤ 5 ∧
    (dir = .clockwise →
      0 ≤ arcClampDA a0 a1 dir ∧ arcClampDA a0 a1 dir ≤ PI * 2) ∧
    (dir = .counterClockwise →
      -(PI * 2) ≤ arcClampDA a0 a1 dir ∧ arcClampDA a0 a1 dir ≤ 0) ∧
    absF (arcClampDA a0 a1 dir) <
      (arcNDivs (arcClampDA a0 a1 dir) : ℚ) * (PI * (1 / 2)) + PI * (1 / 4) ∧
    (ctx.Arc ff cx cy r a0 a1 dir).commands.map Cmd.tag =
      ctx.commands.map Cmd.tag ++
        ((if ctx.commands.length > 0 then 1 else 0) ::
          List.replicate (arcNDivs (arcClampDA a0 a1 dir)) 2) ∧
    (a0 = 0 → a1 = PI * 2 → dir = .clockwise → ff.sinCos (PI * 2) = ff.sinCos 0 →
      arcNDivs (arcClampDA a0 a1 dir) = 4 ∧
      ((arcLoop ff cx cy r a0 (arcClampDA a0 a1 dir) (arcNDivs (arcClampDA a0 a1 dir))
          (arcKappa ff (arcClampDA a0 a1 dir) (arcNDivs (arcClampDA a0 a1 dir)) dir)
          (decide (ctx.commands.length > 0)) 0 0 0 0 0).getLast?).map Cmd.endPoint =
        ((arcLoop ff cx cy r a0 (arcClampDA a0 a1 dir) (arcNDivs (arcClampDA a0 a1 dir))
          (arcKappa ff (arcClampDA a0 a1 dir) (arcNDivs (arcClampDA a0 a1 dir)) dir)
          (decide (ctx.commands.length > 0)) 0 0 0 0 0).head?).map Cmd.endPoint) := by
  have habs : absF (arcClampDA a0 a1 dir) ≤ PI * 2 := by
    cases dir with
    | clockwise =>
      have h := arcClampDA_cw a0 a1
      simp only [absF, abs_le]
      constructor <;> linarith [PI_pos]
    | counterClockwise =>
      have h := arcClampDA_ccw a0 a1
      simp only [absF, abs_le]
      constructor <;> linarith [PI_pos]
  refine ⟨(arcNDivs_bounds _).1, (arcNDivs_bounds _).2, ?_, ?_, arcSeg_bound _ habs, ?_, ?_⟩
  · intro hdir
    subst hdir
    exact arcClampDA_cw a0 a1
  · intro hdir
    subst hdir
    exact arcClampDA_ccw a0 a1
  · show (ctx.appendCommand _).commands.map Cmd.tag = _
    simp only [Context.appendCommand]
    rw [List.map_append, transformCmds_tags, arcLoop_tags_zero]
    simp only [decide_eq_true_eq]
  · intro h0 h1 hdir hper
    subst h0
    subst h1
    subst hdir
    have hda : arcClampDA 0 (PI * 2) .clockwise = PI * 2 := by
      simp only [arcClampDA, absF]
      norm_num [PI, abs_of_nonneg]
    have hn : arcNDivs (arcClampDA 0 (PI * 2) .clockwise) = 4 := by
      rw [hda]
      unfold arcNDivs clampI
      norm_num [PI, absF, abs_of_nonneg]
      try rfl
    refine ⟨hn, ?_⟩
    rw [hn]
    have hlast := arcLoop_last ff cx cy r 0 (arcClampDA 0 (PI * 2) .clockwise) 4
      (arcKappa ff (arcClampDA 0 (PI * 2) .clockwise) 4 .clockwise)
      (decide (ctx.commands.length > 0)) 5 0 (0 : ℚ) 0 0 0 (by norm_num) (by norm_num)
    rw [hlast, arcLoop_head]
    have hpt : arcPoint ff cx cy r 0 (arcClampDA 0 (PI * 2) .clockwise) 4 4 =
        arcPoint ff cx cy r 0 (arcClampDA 0 (PI * 2) .clockwise) 4 0 := by
      unfold arcPoint
      rw [hda]
      have ha4 : (0 : ℚ) + PI * 2 * ((4 : ℕ) : ℚ) / ((4 : ℕ) : ℚ) = PI * 2 := by
        push_cast
        ring
      have ha0 : (0 : ℚ) + PI * 2 * ((0 : ℕ) : ℚ) / ((4 : ℕ) : ℚ) = 0 := by
        push_cast
        ring
      rw [ha4, ha0, hper]
    rw [hpt]
    split <;> rfl

/-- Witness for the amended C4 at the full-circle scenario on an empty
buffer (the constant-value trigonometric oracle is trivially periodic). -/
theorem claim_C4_witness :
    (0 ≤ arcClampDA 0 (PI * 2) .clockwise ∧ arcClampDA 0 (PI * 2) .clockwise ≤ PI * 2) ∧
    arcNDivs (arcClampDA 0 (PI * 2) .clockwise) = 4 := by
  have h := claim_C4_amended ffW ctxW 0 0 1 0 (PI * 2) .clockwise
  exact ⟨h.2.2.1 rfl, (h.2.2.2.2.2.2 rfl rfl rfl rfl).1⟩

/-! ### C7: hard rejection of single-point stroke paths -/

theorem posCount_flattenPostStep (ff : FloatFuns) (dt : ℚ) (c : nvgPathCache) (j : ℕ)
    (h : ∀ p ∈ c.paths, 1 ≤ p.count) :
    ∀ p ∈ (flattenPostStep ff dt c j).paths, 1 ≤ p.count := by
  unfold flattenPostStep
  cases hj : c.paths[j]? with
  | none => exact h
  | some path =>
    intro p hp
    simp only at hp
    rcases List.mem_or_eq_of_mem_set hp with hin | hnew
    · exact h p hin
    · have hpmem : path ∈ c.paths := by
        obtain ⟨hlt, hval⟩ := List.getElem?_eq_some_iff.mp hj
        rw [← hval]
        exact List.getElem_mem hlt
      have hpos := h path hpmem
      subst hnew
      simp only [postSeg]
      split
      · rename_i hdedup
        have h2 : path.count > 2 := by
          simp only [dedupTest, Bool.and_eq_true, decide_eq_true_eq] at hdedup
          exact hdedup.2
        omega
      · exact hpos

theorem posCount_foldPost (ff : FloatFuns) (dt : ℚ) (l : List ℕ) (c : nvgPathCache)
    (h : ∀ p ∈ c.paths, 1 ≤ p.count) :
    ∀ p ∈ (l.foldl (flattenPostStep ff dt) c).paths, 1 ≤ p.count := by
  induction l generalizing c with
  | nil => exact h
  | cons j rest ih => exact ih _ (posCount_flattenPostStep ff dt c j h)

/-- Every sub-path produced by `flattenPaths` from a cleared cache holds at
least one point: a sub-path is only ever created by a `MoveTo`, which
immediately contributes its first point, and the closing-point merge only
fires on paths of more than two points. -/
theorem posCount_flattenPaths (ff : FloatFuns) (tt dt : ℚ) (cmds : List Cmd) :
    ∀ p ∈ (flattenPaths ff tt dt cmds emptyCache).paths, 1 ≤ p.count := by
  unfold flattenPaths
  rw [if_neg (by simp [emptyCache])]
  exact posCount_foldPost ff dt _ _ (wf_commandLoop tt dt cmds emptyCache wf_emptyCache).posCount

/-- C7: when any flattened sub-path has fewer than 2 effective points, the
`Stroke` call fails hard (the source `panic`, modelled as `none`) instead of
emitting geometry. -/
theorem claim_C7 (ff : FloatFuns) (edgeAA : Bool) (ctx : Context)
    (hc : ctx.cache = emptyCache) (p : nvgPath)
    (hmem : p ∈ (flattenPaths ff ctx.tessTol ctx.distTol ctx.commands ctx.cache).paths)
    (hlow : p.count < 2) :
    ctx.Stroke ff edgeAA = none := by
  have hpos : 1 ≤ p.count := by
    rw [hc] at hmem
    exact posCount_flattenPaths ff ctx.tessTol ctx.distTol ctx.commands p hmem
  have hone : p.count = 1 := by omega
  have hany : ((flattenPaths ff ctx.tessTol ctx.distTol ctx.commands ctx.cache).paths.any
      fun q => decide (q.count = 1)) = true := by
    rw [List.any_eq_true]
    exact ⟨p, hmem, by simp [hone]⟩
  simp only [Context.Stroke]
  rw [if_pos hany]

/-- Witness for C7: a path consisting of a single `MoveTo` flattens to one
single-point sub-path, and `Stroke` rejects it. -/
theorem claim_C7_witness :
    ({ ctxW with commands := [.moveTo 0 0] } : Context).Stroke ffW false = none := by
  refine claim_C7 ffW false _ rfl { newPathAt 0 with count := 1 } ?_ (by norm_num [newPathAt])
  show { newPathAt 0 with count := 1 } ∈
    (flattenPaths ffW (1 / 4) (1 / 100) [.moveTo 0 0] emptyCache).paths
  unfold flattenPaths
  rw [if_neg (by simp [emptyCache])]
  rw [commandLoop_moveTo, moveToStep_eq, commandLoop_nil]
  simp only [emptyCache, List.nil_append, List.length_nil]
  norm_num [flattenPostStep, postSeg, dedupTest, enforceWinding, ptEquals, shoelace,
    shoeAux, crossTerm, List.range_succ, dirLenSeg, normalize, ffW, freshPoint,
    newPathAt, setLast, boundsSeg, minF, maxF]

/-! ### C1: flattening is cached per path epoch -/

theorem addPoint_nil (c : nvgPathCache) (x y : ℚ) (fl : ℕ) (tol : ℚ)
    (h : c.paths = []) : c.addPoint x y fl tol = c := by
  unfold nvgPathCache.addPoint
  rw [show c.paths.getLast? = none from by rw [h]; rfl]

theorem closePath_nil (c : nvgPathCache) (h : c.paths = []) : c.closePath = c := by
  unfold nvgPathCache.closePath
  rw [show c.paths.getLast? = none from by rw [h]; rfl]

theorem pathWinding_nil (c : nvgPathCache) (w : ℚ) (h : c.paths = []) :
    c.pathWinding w = c := by
  unfold nvgPathCache.pathWinding
  rw [show c.paths.getLast? = none from by rw [h]; rfl]

theorem foldl_addPoint_nil (c : nvgPathCache) (l : List (ℚ × ℚ × ℕ)) (tol : ℚ)
    (h : c.paths = []) :
    l.foldl (fun c p => c.addPoint p.1 p.2.1 p.2.2 tol) c = c := by
  induction l with
  | nil => rfl
  | cons p rest ih =>
    show (rest.foldl _ (c.addPoint p.1 p.2.1 p.2.2 tol)) = c
    rw [addPoint_nil c _ _ _ _ h]
    exact ih

theorem tesselateBezier_nil (c : nvgPathCache) (x1 y1 x2 y2 x3 y3 x4 y4 : ℚ)
    (level fl : ℕ) (tt dt : ℚ) (h : c.paths = []) :
    c.tesselateBezier x1 y1 x2 y2 x3 y3 x4 y4 level fl tt dt = c :=
  foldl_addPoint_nil c _ dt h

/-- Without a `MoveTo`, the opcode walk on an empty cache is the identity:
no sub-path exists, so every point-appending operation is dropped. -/
theorem commandLoop_no_move (tt dt : ℚ) (l : List Cmd) (c : nvgPathCache)
    (hc : c.paths = []) (hl : ∀ x ∈ l, Cmd.tag x ≠ 0) :
    commandLoop tt dt c l = c := by
  induction l generalizing c with
  | nil => rfl
  | cons cmd rest ih =>
    have hrest : ∀ x ∈ rest, Cmd.tag x ≠ 0 := fun x hx => hl x (List.mem_cons_of_mem _ hx)
    cases cmd with
    | moveTo x y => exact absurd rfl (hl _ (List.mem_cons_self _ _))
    | lineTo x y =>
      rw [commandLoop_lineTo, addPoint_nil c _ _ _ _ hc]
      exact ih c hc hrest
    | bezierTo c1x c1y c2x c2y x y =>
      rw [commandLoop_bezierTo]
      have hop : (match c.lastPoint with
          | none => c
          | some last =>
            c.tesselateBezier last.x last.y c1x c1y c2x c2y x y 0 nvgPtCORNER tt dt) = c := by
        cases c.lastPoint with
        | none => rfl
        | some last => exact tesselateBezier_nil c _ _ _ _ _ _ _ _ _ _ _ _ hc
      rw [hop]
      exact ih c hc hrest
    | close =>
      rw [commandLoop_close, closePath_nil c hc]
      exact ih c hc hrest
    | winding w =>
      rw [commandLoop_winding, pathWinding_nil c _ hc]
      exact ih c hc hrest

theorem addPoint_paths_ne (c : nvgPathCache) (x y : ℚ) (fl : ℕ) (tol : ℚ)
    (h : c.paths ≠ []) : (c.addPoint x y fl tol).paths ≠ [] := by
  unfold nvgPathCache.addPoint
  cases hl : c.paths.getLast? with
  | none => exact h
  | some path =>
    simp only
    split
    · split
      · exact h
      · simp
    · simp

theorem foldl_addPoint_paths_ne (c : nvgPathCache) (l : List (ℚ × ℚ × ℕ)) (tol : ℚ)
    (h : c.paths ≠ []) :
    (l.foldl (fun c p => c.addPoint p.1 p.2.1 p.2.2 tol) c).paths ≠ [] := by
  induction l generalizing c with
  | nil => exact h
  | cons p rest ih => exact ih _ (addPoint_paths_ne c _ _ _ _ h)

theorem closePath_paths_ne (c : nvgPathCache) (h : c.paths ≠ []) :
    c.closePath.paths ≠ [] := by
  unfold nvgPathCache.closePath
  cases hl : c.paths.getLast? with
  | none => exact h
  | some path => simp

theorem pathWinding_paths_ne (c : nvgPathCache) (w : ℚ) (h : c.paths ≠ []) :
    (c.pathWinding w).paths ≠ [] := by
  unfold nvgPathCache.pathWinding
  cases hl : c.paths.getLast? with
  | none => exact h
  | some path => simp

theorem commandLoop_paths_ne (tt dt : ℚ) (l : List Cmd) (c : nvgPathCache)
    (h : c.paths ≠ []) : (commandLoop tt dt c l).paths ≠ [] := by
  induction l generalizing c with
  | nil => exact h
  | cons cmd rest ih =>
    cases cmd with
    | moveTo x y =>
      rw [commandLoop_moveTo, moveToStep_eq]
      exact ih _ (by simp)
    | lineTo x y => exact ih _ (addPoint_paths_ne c _ _ _ _ h)
    | bezierTo c1x c1y c2x c2y x y =>
      rw [commandLoop_bezierTo]
      cases c.lastPoint with
      | none => exact ih _ h
      | some last => exact ih _ (foldl_addPoint_paths_ne c _ _ h)
    | close => exact ih _ (closePath_paths_ne c h)
    | winding w => exact ih _ (pathWinding_paths_ne c _ h)

/-- Any `MoveTo` in the buffer leaves the walk with at least one sub-path. -/
theorem commandLoop_has_move (tt dt : ℚ) (l : List Cmd) (c : nvgPathCache)
    (hl : ∃ x ∈ l, Cmd.tag x = 0) : (commandLoop tt dt c l).paths ≠ [] := by
  induction l generalizing c with
  | nil =>
    obtain ⟨x, hx, _⟩ := hl
    exact absurd hx (List.not_mem_nil x)
  | cons cmd rest ih =>
    cases cmd with
    | moveTo x y =>
      rw [commandLoop_moveTo, moveToStep_eq]
      exact commandLoop_paths_ne tt dt rest _ (by simp)
    | lineTo x y =>
      obtain ⟨z, hz, htag⟩ := hl
      rcases List.mem_cons.mp hz with hz1 | hz2
      · subst hz1
        exact absurd htag (by simp [Cmd.tag])
      · exact ih _ ⟨z, hz2, htag⟩
    | bezierTo c1x c1y c2x c2y x y =>
      obtain ⟨z, hz, htag⟩ := hl
      rcases List.mem_cons.mp hz with hz1 | hz2
      · subst hz1
        exact absurd htag (by simp [Cmd.tag])
      · rw [commandLoop_bezierTo]
        exact ih _ ⟨z, hz2, htag⟩
    | close =>
      obtain ⟨z, hz, htag⟩ := hl
      rcases List.mem_cons.mp hz with hz1 | hz2
      · subst hz1
        exact absurd htag (by simp [Cmd.tag])
      · exact ih _ ⟨z, hz2, htag⟩
    | winding w =>
      obtain ⟨z, hz, htag⟩ := hl
      rcases List.mem_cons.mp hz with hz1 | hz2
      · subst hz1
        exact absurd htag (by simp [Cmd.tag])
      · exact ih _ ⟨z, hz2, htag⟩

theorem flattenPostStep_paths_length (ff : FloatFuns) (dt : ℚ) (c : nvgPathCache)
    (j : ℕ) : (flattenPostStep ff dt c j).paths.length = c.paths.length := by
  unfold flattenPostStep
  cases hj : c.paths[j]? with
  | none => rfl
  | some path => simp

theorem foldPost_paths_length (ff : FloatFuns) (dt : ℚ) (l : List ℕ)
    (c : nvgPathCache) :
    ((l.foldl (flattenPostStep ff dt) c).paths).length = c.paths.length := by
  induction l generalizing c with
  | nil => rfl
  | cons j rest ih => rw [List.foldl_cons, ih, flattenPostStep_paths_length]

/-- `flattenPaths` is skipped entirely on a cache that already holds
paths. -/
theorem flattenPaths_skip (ff : FloatFuns) (tt dt : ℚ) (cmds : List Cmd)
    (c : nvgPathCache) (h : c.paths ≠ []) : flattenPaths ff tt dt cmds c = c := by
  unfold flattenPaths
  rw [if_pos]
  simp [h]

theorem expandFill_nilPaths (c : nvgPathCache) (w : ℚ) (j : ℕ) (m fr : ℚ)
    (h : c.paths = []) : c.expandFill w j m fr = c := by
  obtain ⟨pts, ps, b⟩ := c
  simp only at h
  subst h
  rfl

theorem expandFill_expandFill (c : nvgPathCache) (w : ℚ) (j : ℕ) (m fr : ℚ) :
    (c.expandFill w j m fr).expandFill w j m fr = c.expandFill w j m fr := by
  unfold nvgPathCache.expandFill
  simp only [List.map_map, List.length_map]
  rfl

/-- One `Fill`-shaped cache transformation (flatten, then expand) is
idempotent: the flatten of the second round is skipped when the first round
produced paths, and recomputes identically when it produced none. -/
theorem fillCacheStep_idem (ff : FloatFuns) (tt dt : ℚ) (cmds : List Cmd)
    (w fr : ℚ) (c : nvgPathCache) :
    (flattenPaths ff tt dt cmds
        ((flattenPaths ff tt dt cmds c).expandFill w Miter (12 / 5) fr)).expandFill
        w Miter (12 / 5) fr =
      (flattenPaths ff tt dt cmds c).expandFill w Miter (12 / 5) fr := by
  by_cases hp : (flattenPaths ff tt dt cmds c).paths = []
  · have hc0 : c.paths = [] := by
      by_contra hne
      rw [flattenPaths_skip ff tt dt cmds c hne] at hp
      exact hne hp
    have hloopnil : (commandLoop tt dt c cmds).paths = [] := by
      unfold flattenPaths at hp
      rw [if_neg (by simp [hc0])] at hp
      have hlen := foldPost_paths_length ff dt
        (List.range ({ commandLoop tt dt c cmds with
          bounds := ((1000000 : ℚ), (1000000 : ℚ), (-1000000 : ℚ), (-1000000 : ℚ)) }).paths.length)
        { commandLoop tt dt c cmds with
          bounds := ((1000000 : ℚ), (1000000 : ℚ), (-1000000 : ℚ), (-1000000 : ℚ)) }
      rw [hp] at hlen
      exact List.length_eq_zero.mp (by simpa using hlen.symm)
    have hnomove : ∀ x ∈ cmds, Cmd.tag x ≠ 0 := by
      intro x hx h0
      exact commandLoop_has_move tt dt cmds c ⟨x, hx, h0⟩ hloopnil
    have hloop : commandLoop tt dt c cmds = c := commandLoop_no_move tt dt cmds c hc0 hnomove
    have hF : flattenPaths ff tt dt cmds c =
        { c with bounds := ((1000000 : ℚ), (1000000 : ℚ), (-1000000 : ℚ), (-1000000 : ℚ)) } := by
      unfold flattenPaths
      rw [if_neg (by simp [hc0]), hloop]
      simp [hc0]
    have hSnil : ({ c with
        bounds := ((1000000 : ℚ), (1000000 : ℚ), (-1000000 : ℚ), (-1000000 : ℚ)) } :
          nvgPathCache).paths = [] := hc0
    have hloop2 : commandLoop tt dt
        { c with bounds := ((1000000 : ℚ), (1000000 : ℚ), (-1000000 : ℚ), (-1000000 : ℚ)) }
        cmds =
        { c with bounds := ((1000000 : ℚ), (1000000 : ℚ), (-1000000 : ℚ), (-1000000 : ℚ)) } :=
      commandLoop_no_move tt dt cmds _ hSnil hnomove
    have hF2 : flattenPaths ff tt dt cmds
        { c with bounds := ((1000000 : ℚ), (1000000 : ℚ), (-1000000 : ℚ), (-1000000 : ℚ)) } =
        { c with bounds := ((1000000 : ℚ), (1000000 : ℚ), (-1000000 : ℚ), (-1000000 : ℚ)) } := by
      unfold flattenPaths
      rw [if_neg (by simp [hc0]), hloop2]
      rw [show ({ c with
        bounds := ((1000000 : ℚ), (1000000 : ℚ), (-1000000 : ℚ), (-1000000 : ℚ)) } :
          nvgPathCache).paths = [] from hc0]
      rfl
    have hnilexp := expandFill_nilPaths
      { c with bounds := ((1000000 : ℚ), (1000000 : ℚ), (-1000000 : ℚ), (-1000000 : ℚ)) }
      w Miter (12 / 5) fr hSnil
    rw [hF, hnilexp, hF2, hnilexp]
  · have h1 : ((flattenPaths ff tt dt cmds c).expandFill w Miter (12 / 5) fr).paths ≠ [] := by
      unfold nvgPathCache.expandFill
      simp [hp]
    rw [flattenPaths_skip _ _ _ _ _ h1, expandFill_expandFill]

/-- C1: flattening is idempotent within a path epoch — when the cache
already holds flattened paths, `flattenPaths` returns it unchanged, and a
second `Fill` without an intervening `BeginPath` leaves the cached paths and
bounds identical to those of the first `Fill`. -/
theorem claim_C1 :
    (∀ (ff : FloatFuns) (tt dt : ℚ) (cmds : List Cmd) (c : nvgPathCache),
        c.paths ≠ [] → flattenPaths ff tt dt cmds c = c) ∧
    (∀ (ff : FloatFuns) (edgeAA : Bool) (ctx : Context),
        ((ctx.Fill ff edgeAA).1.Fill ff edgeAA).1.cache.paths =
          (ctx.Fill ff edgeAA).1.cache.paths ∧
        ((ctx.Fill ff edgeAA).1.Fill ff edgeAA).1.cache.bounds =
          (ctx.Fill ff edgeAA).1.cache.bounds) := by
  constructor
  · exact fun ff tt dt cmds c h => flattenPaths_skip ff tt dt cmds c h
  · intro ff aa ctx
    have h2 : ((ctx.Fill ff aa).1.Fill ff aa).1.cache = (ctx.Fill ff aa).1.cache := by
      cases aa with
      | false =>
        exact fillCacheStep_idem ff ctx.tessTol ctx.distTol ctx.commands 0
          ctx.fringeWidth ctx.cache
      | true =>
        exact fillCacheStep_idem ff ctx.tessTol ctx.distTol ctx.commands
          ctx.fringeWidth ctx.fringeWidth ctx.cache
    exact ⟨congrArg nvgPathCache.paths h2, congrArg nvgPathCache.bounds h2⟩

/-- Witness for C1: a cache already holding a path is returned untouched by
`flattenPaths`, and the double-`Fill` cache equality at a concrete
context. -/
theorem claim_C1_witness :
    flattenPaths ffW 0 0 []
        (⟨[], [newPathAt 0], (0, 0, 0, 0)⟩ : nvgPathCache) =
      (⟨[], [newPathAt 0], (0, 0, 0, 0)⟩ : nvgPathCache) ∧
    ((ctxW.Fill ffW true).1.Fill ffW true).1.cache.paths =
      (ctxW.Fill ffW true).1.cache.paths :=
  ⟨claim_C1.1 ffW 0 0 [] _ (by simp), (claim_C1.2 ffW true ctxW).1⟩

/-! ### C3: winding-sign enforcement

The post-pass of `flattenPaths` reverses a sub-path's point window whenever
the sign of its signed area disagrees with its declared winding class.  We
show that after the whole pass every Solid sub-path has nonnegative signed
area and every Hole sub-path nonpositive signed area (a window of at most
two points has area zero and satisfies both).  The proof threads a weakening
of `CacheWF` through the per-path fold and shows each step fixes the sign of
its own window while leaving the windows of already-processed sub-paths
untouched. -/

/-- The invariant of the post-pass phase: windows ordered, and the last
window (hence any window) contained in the point arena. -/
structure PostWF (c : nvgPathCache) : Prop where
  ordered : RangesOrdered c.paths
  lastLE : ∀ p, c.paths.getLast? = some p → p.first + p.count ≤ c.points.length

theorem postWF_of_cacheWF (c : nvgPathCache) (h : CacheWF c) : PostWF c :=
  ⟨h.ordered, fun p hp => le_of_eq (h.lastEq p hp)⟩

theorem ordered_chain (paths : List nvgPath) (hord : RangesOrdered paths) (d : ℕ) :
    ∀ (j : ℕ) (p q : nvgPath), paths[j]? = some p → paths[j + d + 1]? = some q →
      p.first + p.count ≤ q.first := by
  induction d with
  | zero => exact fun j p q hp hq => hord j p q hp hq
  | succ d ih =>
    intro j p q hp hq
    have hlt : j + d + 1 < paths.length := by
      have := (List.getElem?_eq_some_iff.mp hq).1
      omega
    have hr : paths[j + d + 1]? = some paths[j + d + 1] := List.getElem?_eq_getElem hlt
    have h1 := ih j p _ hp hr
    have h2 : paths[j + d + 1].first + paths[j + d + 1].count ≤ q.first := by
      refine hord (j + d + 1) _ q hr ?_
      rw [show j + d + 1 + 1 = j + (d + 1) + 1 by omega]
      exact hq
    omega

theorem ordered_lt (paths : List nvgPath) (hord : RangesOrdered paths)
    (j k : ℕ) (p q : nvgPath) (hjk : j < k)
    (hp : paths[j]? = some p) (hq : paths[k]? = some q) :
    p.first + p.count ≤ q.first := by
  obtain ⟨d, rfl⟩ : ∃ d, k = j + d + 1 := ⟨k - j - 1, by omega⟩
  exact ordered_chain paths hord d j p q hp hq

/-- Every window of a `PostWF` cache lies inside the point arena. -/
theorem postWF_bound (c : nvgPathCache) (h : PostWF c) (j : ℕ) (p : nvgPath)
    (hp : c.paths[j]? = some p) : p.first + p.count ≤ c.points.length := by
  have hlt : j < c.paths.length := (List.getElem?_eq_some_iff.mp hp).1
  have hlast : c.paths.length - 1 < c.paths.length := by omega
  have hq : c.paths[c.paths.length - 1]? = some c.paths[c.paths.length - 1] :=
    List.getElem?_eq_getElem hlast
  have hlastLE : c.paths[c.paths.length - 1].first +
      c.paths[c.paths.length - 1].count ≤ c.points.length := by
    refine h.lastLE _ ?_
    rw [List.getLast?_eq_getElem?]
    exact hq
  by_cases hj : j = c.paths.length - 1
  · subst hj
    rw [hq] at hp
    have hpe := Option.some.inj hp
    rw [← hpe]
    exact hlastLE
  · have hjlt : j < c.paths.length - 1 := by omega
    have := ordered_lt c.paths h.ordered j (c.paths.length - 1) p _ hjlt hp hq
    omega

theorem drop_take_append {α : Type} (pre seg rest : List α) (count : ℕ)
    (hlen : seg.length = count) :
    ((pre ++ (seg ++ rest)).drop pre.length).take count = seg := by
  rw [List.drop_left, ← hlen, List.take_left]

/-- Reading back the window that a point-arena surgery wrote. -/
theorem seg_replace {α : Type} (pts seg rest : List α) (first count : ℕ)
    (hlen : seg.length = count) (hle : first ≤ pts.length) :
    ((pts.take first ++ (seg ++ rest)).drop first).take count = seg := by
  have h := drop_take_append (pts.take first) seg rest count hlen
  rwa [List.length_take, Nat.min_eq_left hle] at h

/-- A point-arena surgery at `first` leaves every prefix up to `first`
untouched. -/
theorem take_prefix_append {α : Type} (pts seg rest : List α) (first n : ℕ)
    (hn : n ≤ first) (hle : first ≤ pts.length) :
    (pts.take first ++ (seg ++ rest)).take n = pts.take n := by
  rw [List.take_append_of_le_length (by rw [List.length_take]; omega),
    List.take_take, Nat.min_eq_left hn]

/-- Windows wholly inside a common prefix of two arenas coincide. -/
theorem slice_eq_of_take_eq {α : Type} (l₁ l₂ : List α) (n a b : ℕ)
    (h : l₁.take n = l₂.take n) (hab : a + b ≤ n) :
    (l₁.drop a).take b = (l₂.drop a).take b := by
  apply List.ext_getElem?
  intro i
  rw [List.getElem?_take, List.getElem?_take]
  by_cases hi : i < b
  · rw [if_pos hi, if_pos hi, List.getElem?_drop, List.getElem?_drop]
    have h1 : (l₁.take n)[a + i]? = (l₂.take n)[a + i]? := by rw [h]
    rwa [List.getElem?_take, if_pos (by omega), List.getElem?_take,
      if_pos (by omega)] at h1
  · rw [if_neg hi, if_neg hi]

theorem dirLenSeg_length (ff : FloatFuns) (seg : List nvgPoint) :
    (dirLenSeg ff seg).length = seg.length := by
  simp only [dirLenSeg, List.length_map, List.length_range]

/-- The direction/length pass never touches point positions. -/
theorem dirLenSeg_map_xy (ff : FloatFuns) (seg : List nvgPoint) :
    (dirLenSeg ff seg).map (fun p => (p.x, p.y)) = seg.map (fun p => (p.x, p.y)) := by
  apply List.ext_getElem
  · simp [dirLenSeg]
  · intro i h1 h2
    have hi : i < seg.length := by simpa using h2
    simp only [dirLenSeg, List.getElem_map, List.getElem_range]
    simp only [List.getD_eq_getElem?_getD, List.getElem?_eq_getElem hi]
    rfl

theorem enforceWinding_length (w : ℚ) (count : ℕ) (seg : List nvgPoint) :
    (enforceWinding w count seg).length = seg.length := by
  simp only [enforceWinding]
  split
  · rw [List.length_reverse]
  · rfl

/-- The signed area of at most two points is zero. -/
theorem shoelace_short (l : List (ℚ × ℚ)) (h : l.length ≤ 2) : shoelace l = 0 := by
  match l with
  | [] => simp [shoelace, shoeAux, crossTerm]
  | [a] =>
    show (1 / 2 : ℚ) * (shoeAux [a] + crossTerm a a) = 0
    show (1 / 2 : ℚ) * (0 + crossTerm a a) = 0
    rw [crossTerm]; ring
  | [a, b] =>
    show (1 / 2 : ℚ) * ((crossTerm a b + 0) + crossTerm b a) = 0
    rw [crossTerm, crossTerm]; ring
  | a :: b :: c :: rest => simp at h

/-- Winding enforcement leaves a window whose signed area sign agrees with
the winding class. -/
theorem enforceWinding_sign (w : ℚ) (count : ℕ) (seg : List nvgPoint)
    (hlen : seg.length ≤ count) :
    (w = WindingSolid →
      0 ≤ shoelace ((enforceWinding w count seg).map fun p => (p.x, p.y))) ∧
    (w = WindingHole →
      shoelace ((enforceWinding w count seg).map fun p => (p.x, p.y)) ≤ 0) := by
  simp only [enforceWinding]
  split
  · rename_i hcond
    simp only [Bool.and_eq_true, Bool.or_eq_true, decide_eq_true_eq] at hcond
    rw [List.map_reverse, shoelace_reverse]
    obtain ⟨-, hcond⟩ := hcond
    constructor
    · intro hw
      rcases hcond with ⟨-, hlt⟩ | ⟨hw2, -⟩
      · linarith
      · rw [hw] at hw2
        norm_num [WindingSolid, WindingHole] at hw2
    · intro hw
      rcases hcond with ⟨hw2, -⟩ | ⟨-, hgt⟩
      · rw [hw] at hw2
        norm_num [WindingSolid, WindingHole] at hw2
      · linarith
  · rename_i hcond
    by_cases hcnt : 2 < count
    · simp only [Bool.and_eq_true, Bool.or_eq_true, decide_eq_true_eq, not_and,
        not_or] at hcond
      constructor
      · intro hw
        by_contra hneg
        push_neg at hneg
        exact absurd (hcond hcnt).1 (by simp [hw, hneg])
      · intro hw
        by_contra hneg
        push_neg at hneg
        exact absurd (hcond hcnt).2 (by simp [hw, hneg])
    · have hshort : (seg.map fun p => (p.x, p.y)).length ≤ 2 := by
        rw [List.length_map]; omega
      rw [shoelace_short _ hshort]
      exact ⟨fun _ => le_refl 0, fun _ => le_refl 0⟩

theorem postSeg_count_le (ff : FloatFuns) (dt : ℚ) (path : nvgPath)
    (seg0 : List nvgPoint) : (postSeg ff dt path seg0).1 ≤ path.count := by
  simp only [postSeg]
  split
  · omega
  · exact le_refl _

theorem postSeg_len (ff : FloatFuns) (dt : ℚ) (path : nvgPath) (seg0 : List nvgPoint)
    (hlen : seg0.length = path.count) :
    (postSeg ff dt path seg0).2.2.length = (postSeg ff dt path seg0).1 := by
  simp only [postSeg]
  rw [dirLenSeg_length, enforceWinding_length, List.length_take, hlen]
  split <;> omega

/-- The rewritten window of a post-pass step has the sign its winding class
demands. -/
theorem postSeg_sign (ff : FloatFuns) (dt : ℚ) (path : nvgPath) (seg0 : List nvgPoint) :
    (path.winding = WindingSolid →
      0 ≤ shoelace ((postSeg ff dt path seg0).2.2.map fun p => (p.x, p.y))) ∧
    (path.winding = WindingHole →
      shoelace ((postSeg ff dt path seg0).2.2.map fun p => (p.x, p.y)) ≤ 0) := by
  simp only [postSeg]
  rw [dirLenSeg_map_xy]
  exact enforceWinding_sign path.winding _ _
    (by rw [List.length_take]; exact Nat.min_le_left _ _)

theorem flattenPostStep_eq_none (ff : FloatFuns) (dt : ℚ) (c : nvgPathCache) (k : ℕ)
    (hk : c.paths[k]? = none) : flattenPostStep ff dt c k = c := by
  unfold flattenPostStep
  rw [hk]

/-- One post-pass step, spelled out on the hit path. -/
theorem flattenPostStep_eq_some (ff : FloatFuns) (dt : ℚ) (c : nvgPathCache) (k : ℕ)
    (path : nvgPath) (hk : c.paths[k]? = some path) :
    flattenPostStep ff dt c k =
      { c with
        points := c.points.take path.first ++
          (postSeg ff dt path ((c.points.drop path.first).take path.count)).2.2 ++
          c.points.drop (path.first +
            (postSeg ff dt path ((c.points.drop path.first).take path.count)).1),
        paths := c.paths.set k { path with
          count := (postSeg ff dt path ((c.points.drop path.first).take path.count)).1,
          closed :=
            (postSeg ff dt path ((c.points.drop path.first).take path.count)).2.1 },
        bounds := boundsSeg
          (postSeg ff dt path ((c.points.drop path.first).take path.count)).2.2
          c.bounds } := by
  unfold flattenPostStep
  rw [hk]

theorem flattenPostStep_paths_get_self (ff : FloatFuns) (dt : ℚ) (c : nvgPathCache)
    (k : ℕ) (path : nvgPath) (hk : c.paths[k]? = some path) :
    (flattenPostStep ff dt c k).paths[k]? =
      some { path with
        count := (postSeg ff dt path ((c.points.drop path.first).take path.count)).1,
        closed :=
          (postSeg ff dt path ((c.points.drop path.first).take path.count)).2.1 } := by
  have hklt : k < c.paths.length := (List.getElem?_eq_some_iff.mp hk).1
  rw [flattenPostStep_eq_some ff dt c k path hk]
  exact List.getElem?_set_self hklt

theorem flattenPostStep_paths_get_other (ff : FloatFuns) (dt : ℚ) (c : nvgPathCache)
    (k j : ℕ) (hne : k ≠ j) :
    (flattenPostStep ff dt c k).paths[j]? = c.paths[j]? := by
  cases hk : c.paths[k]? with
  | none => rw [flattenPostStep_eq_none ff dt c k hk]
  | some path =>
    rw [flattenPostStep_eq_some ff dt c k path hk]
    exact List.getElem?_set_ne hne

theorem flattenPostStep_points_some (ff : FloatFuns) (dt : ℚ) (c : nvgPathCache)
    (k : ℕ) (path : nvgPath) (hk : c.paths[k]? = some path) :
    (flattenPostStep ff dt c k).points =
      c.points.take path.first ++
        ((postSeg ff dt path ((c.points.drop path.first).take path.count)).2.2 ++
          c.points.drop (path.first +
            (postSeg ff dt path ((c.points.drop path.first).take path.count)).1)) := by
  rw [flattenPostStep_eq_some ff dt c k path hk]
  exact List.append_assoc _ _ _

/-- Shrinking one window (same start, smaller count) keeps the windows
ordered. -/
theorem ordered_set (paths : List nvgPath) (k : ℕ) (path x : nvgPath)
    (hk : paths[k]? = some path) (hord : RangesOrdered paths)
    (hfirst : x.first = path.first) (hcle : x.count ≤ path.count) :
    RangesOrdered (paths.set k x) := by
  have hklt : k < paths.length := (List.getElem?_eq_some_iff.mp hk).1
  intro i p q hp hq
  by_cases hik : k = i
  · subst hik
    rw [List.getElem?_set_self hklt] at hp
    rw [List.getElem?_set_ne (by omega : k ≠ k + 1)] at hq
    have hpe := Option.some.inj hp
    have hord1 := hord k path q hk hq
    rw [← hpe, hfirst]
    omega
  · by_cases hik1 : k = i + 1
    · subst hik1
      rw [List.getElem?_set_ne (by omega : i + 1 ≠ i)] at hp
      rw [List.getElem?_set_self hklt] at hq
      have hqe := Option.some.inj hq
      have hord1 := hord i p path hp hk
      rw [← hqe, hfirst]
      omega
    · rw [List.getElem?_set_ne hik] at hp
      rw [List.getElem?_set_ne hik1] at hq
      exact hord i p q hp hq

/-- Replacing one record with one whose window is still inside the arena
keeps the last window inside the arena. -/
theorem lastLE_set (paths : List nvgPath) (k : ℕ) (path x : nvgPath) (N : ℕ)
    (hk : paths[k]? = some path) (hxb : x.first + x.count ≤ N)
    (hall : ∀ p, paths.getLast? = some p → p.first + p.count ≤ N) :
    ∀ p, (paths.set k x).getLast? = some p → p.first + p.count ≤ N := by
  have hklt : k < paths.length := (List.getElem?_eq_some_iff.mp hk).1
  intro p hp
  rw [List.getLast?_eq_getElem?, List.length_set] at hp
  by_cases hkl : k = paths.length - 1
  · rw [← hkl, List.getElem?_set_self hklt] at hp
    have hpe := Option.some.inj hp
    rw [← hpe]
    exact hxb
  · rw [List.getElem?_set_ne hkl] at hp
    exact hall p (by rw [List.getLast?_eq_getElem?]; exact hp)

/-- Each post-pass step preserves the post-pass invariant. -/
theorem flattenPostStep_postWF (ff : FloatFuns) (dt : ℚ) (c : nvgPathCache) (k : ℕ)
    (h : PostWF c) : PostWF (flattenPostStep ff dt c k) := by
  cases hk : c.paths[k]? with
  | none =>
    rw [flattenPostStep_eq_none ff dt c k hk]
    exact h
  | some path =>
    rw [flattenPostStep_eq_some ff dt c k path hk]
    have hbound := postWF_bound c h k path hk
    set seg0 := (c.points.drop path.first).take path.count with hseg0def
    set r := postSeg ff dt path seg0 with hrdef
    have hs0 : seg0.length = path.count := by
      rw [hseg0def, List.length_take, List.length_drop]
      omega
    have hcle : r.1 ≤ path.count := by
      rw [hrdef]
      exact postSeg_count_le ff dt path seg0
    have hlen : r.2.2.length = r.1 := by
      rw [hrdef]
      exact postSeg_len ff dt path seg0 hs0
    refine ⟨?_, ?_⟩
    · exact ordered_set c.paths k path _ hk h.ordered rfl hcle
    · intro p hp
      have hmain := lastLE_set c.paths k path
        { path with count := r.1, closed := r.2.1 } c.points.length hk
        (by show path.first + r.1 ≤ c.points.length; omega) h.lastLE p hp
      refine le_trans hmain (le_of_eq ?_)
      show c.points.length =
        (c.points.take path.first ++ r.2.2 ++ c.points.drop (path.first + r.1)).length
      rw [List.length_append, List.length_append, List.length_take, List.length_drop,
        hlen]
      omega

/-- The (x, y) slice of the arena window of one sub-path. -/
def pathSlice (c : nvgPathCache) (p : nvgPath) : List (ℚ × ℚ) :=
  ((c.points.drop p.first).take p.count).map fun q => (q.x, q.y)

/-- The winding class of the sub-path at index `j` agrees with the sign of
its signed area. -/
def SignOK (c : nvgPathCache) (j : ℕ) : Prop :=
  ∀ p, c.paths[j]? = some p →
    (p.winding = WindingSolid → 0 ≤ shoelace (pathSlice c p)) ∧
    (p.winding = WindingHole → shoelace (pathSlice c p) ≤ 0)

/-- The post-pass step at index `k` establishes the sign property for its
own window. -/
theorem flattenPostStep_signOK_self (ff : FloatFuns) (dt : ℚ) (c : nvgPathCache)
    (k : ℕ) (h : PostWF c) : SignOK (flattenPostStep ff dt c k) k := by
  cases hk : c.paths[k]? with
  | none =>
    intro p hp
    rw [flattenPostStep_eq_none ff dt c k hk, hk] at hp
    exact Option.noConfusion hp
  | some path =>
    have hklt : k < c.paths.length := (List.getElem?_eq_some_iff.mp hk).1
    have hbound := postWF_bound c h k path hk
    have hs0 : ((c.points.drop path.first).take path.count).length = path.count := by
      rw [List.length_take, List.length_drop]
      omega
    have hTlen := postSeg_len ff dt path ((c.points.drop path.first).take path.count) hs0
    have hslice :
        (((flattenPostStep ff dt c k).points.drop path.first).take
            (postSeg ff dt path ((c.points.drop path.first).take path.count)).1) =
          (postSeg ff dt path ((c.points.drop path.first).take path.count)).2.2 := by
      rw [flattenPostStep_points_some ff dt c k path hk]
      exact seg_replace c.points _ _ path.first _ hTlen (by omega)
    intro p hp
    rw [flattenPostStep_paths_get_self ff dt c k path hk] at hp
    have hpe := Option.some.inj hp
    subst hpe
    have hsign := postSeg_sign ff dt path ((c.points.drop path.first).take path.count)
    constructor
    · intro hw
      have hres := hsign.1 hw
      show 0 ≤ shoelace ((((flattenPostStep ff dt c k).points.drop path.first).take
        (postSeg ff dt path ((c.points.drop path.first).take path.count)).1).map
          fun q => (q.x, q.y))
      rw [hslice]
      exact hres
    · intro hw
      have hres := hsign.2 hw
      show shoelace ((((flattenPostStep ff dt c k).points.drop path.first).take
        (postSeg ff dt path ((c.points.drop path.first).take path.count)).1).map
          fun q => (q.x, q.y)) ≤ 0
      rw [hslice]
      exact hres

/-- A post-pass step at a later index leaves the sign property of an earlier
window untouched: the earlier window lies strictly inside the preserved
prefix of the arena. -/
theorem flattenPostStep_signOK_mono (ff : FloatFuns) (dt : ℚ) (c : nvgPathCache)
    (j k : ℕ) (hjk : j < k) (h : PostWF c) (hs : SignOK c j) :
    SignOK (flattenPostStep ff dt c k) j := by
  cases hk : c.paths[k]? with
  | none =>
    rw [flattenPostStep_eq_none ff dt c k hk]
    exact hs
  | some pk =>
    have hboundk := postWF_bound c h k pk hk
    intro p hp
    have hpj : c.paths[j]? = some p := by
      rw [← flattenPostStep_paths_get_other ff dt c k j (by omega)]
      exact hp
    have hchain : p.first + p.count ≤ pk.first :=
      ordered_lt c.paths h.ordered j k p pk hjk hpj hk
    have htake : (flattenPostStep ff dt c k).points.take pk.first =
        c.points.take pk.first := by
      rw [flattenPostStep_points_some ff dt c k pk hk]
      exact take_prefix_append c.points _ _ pk.first pk.first (le_refl _) (by omega)
    have hslice : pathSlice (flattenPostStep ff dt c k) p = pathSlice c p := by
      simp only [pathSlice]
      exact congrArg (List.map _)
        (slice_eq_of_take_eq _ _ pk.first p.first p.count htake hchain)
    rw [hslice]
    exact hs p hpj

theorem foldPost_postWF (ff : FloatFuns) (dt : ℚ) (l : List ℕ) (c : nvgPathCache)
    (h : PostWF c) : PostWF (l.foldl (flattenPostStep ff dt) c) := by
  induction l generalizing c with
  | nil => exact h
  | cons a rest ih => exact ih _ (flattenPostStep_postWF ff dt c a h)

/-- After folding the post-pass over the first `m` indices, every window
below `m` has the sign its winding class demands. -/
theorem foldPost_signOK (ff : FloatFuns) (dt : ℚ) (m : ℕ) (c : nvgPathCache)
    (h : PostWF c) :
    ∀ j, j < m → SignOK ((List.range m).foldl (flattenPostStep ff dt) c) j := by
  induction m with
  | zero => exact fun j hj => absurd hj (by omega)
  | succ m ih =>
    intro j hj
    have hfold : (List.range (m + 1)).foldl (flattenPostStep ff dt) c =
        flattenPostStep ff dt ((List.range m).foldl (flattenPostStep ff dt) c) m := by
      rw [List.range_succ, List.foldl_append, List.foldl_cons, List.foldl_nil]
    rw [hfold]
    have hwfm : PostWF ((List.range m).foldl (flattenPostStep ff dt) c) :=
      foldPost_postWF ff dt _ c h
    by_cases hjm : j < m
    · exact flattenPostStep_signOK_mono ff dt _ j m hjm hwfm (ih j hjm)
    · have hje : j = m := by omega
      subst hje
      exact flattenPostStep_signOK_self ff dt _ j hwfm

/-- On a cache with no paths yet, `flattenPaths` is the opcode walk followed
by the post-pass fold from the sentinel bounds. -/
theorem flattenPaths_eq_fold (ff : FloatFuns) (tt dt : ℚ) (cmds : List Cmd)
    (cache : nvgPathCache) (h : cache.paths = []) :
    flattenPaths ff tt dt cmds cache =
      (List.range ({ commandLoop tt dt cache cmds with
          bounds := ((1000000 : ℚ), (1000000 : ℚ), (-1000000 : ℚ), (-1000000 : ℚ)) }
            : nvgPathCache).paths.length).foldl
        (flattenPostStep ff dt)
        { commandLoop tt dt cache cmds with
          bounds := ((1000000 : ℚ), (1000000 : ℚ), (-1000000 : ℚ), (-1000000 : ℚ)) } := by
  unfold flattenPaths
  rw [if_neg (by simp [h])]

/-- C3: after `flattenPaths` completes, the sign of every sub-path's signed
polygon area agrees with its declared winding class — Solid sub-paths have
nonnegative signed area, Hole sub-paths nonpositive (windows of at most two
points have area zero): any window whose sign disagreed was reversed by the
post-pass. -/
theorem claim_C3 (ff : FloatFuns) (tt dt : ℚ) (cmds : List Cmd) (j : ℕ) (p : nvgPath)
    (hp : (flattenPaths ff tt dt cmds emptyCache).paths[j]? = some p) :
    (p.winding = WindingSolid →
      0 ≤ shoelace (pathSlice (flattenPaths ff tt dt cmds emptyCache) p)) ∧
    (p.winding = WindingHole →
      shoelace (pathSlice (flattenPaths ff tt dt cmds emptyCache) p) ≤ 0) := by
  have hwf0 := wf_commandLoop tt dt cmds emptyCache wf_emptyCache
  rw [flattenPaths_eq_fold ff tt dt cmds emptyCache rfl] at hp ⊢
  have hwf1 : PostWF ({ commandLoop tt dt emptyCache cmds with
      bounds := ((1000000 : ℚ), (1000000 : ℚ), (-1000000 : ℚ), (-1000000 : ℚ)) }
        : nvgPathCache) :=
    ⟨hwf0.ordered, fun q hq => le_of_eq (hwf0.lastEq q hq)⟩
  have hjlt : j < ({ commandLoop tt dt emptyCache cmds with
      bounds := ((1000000 : ℚ), (1000000 : ℚ), (-1000000 : ℚ), (-1000000 : ℚ)) }
        : nvgPathCache).paths.length := by
    have h1 := (List.getElem?_eq_some_iff.mp hp).1
    rwa [foldPost_paths_length] at h1
  exact foldPost_signOK ff dt _ _ hwf1 j hjlt p hp

/-- Witness for C3: a clockwise (negative-area) rectangle declared Solid is
reversed by the post-pass, leaving a window of nonnegative signed area. -/
theorem claim_C3_witness :
    ({ newPathAt 0 with count := 4 } : nvgPath).winding = WindingSolid ∧
    0 ≤ shoelace (pathSlice
      (flattenPaths ffW (1 / 4) (1 / 100)
        [.moveTo 0 0, .lineTo 0 10, .lineTo 10 10, .lineTo 10 0] emptyCache)
      { newPathAt 0 with count := 4 }) :=
  ⟨by norm_num [newPathAt, WindingSolid],
   (claim_C3 ffW (1 / 4) (1 / 100)
       [.moveTo 0 0, .lineTo 0 10, .lineTo 10 10, .lineTo 10 0] 0
       { newPathAt 0 with count := 4 }
       (by
         unfold flattenPaths
         rw [if_neg (by simp [emptyCache])]
         rw [commandLoop_moveTo, moveToStep_eq]
         simp only [emptyCache, List.nil_append, List.length_nil]
         norm_num [commandLoop, nvgPathCache.addPoint, List.getLast, setLast,
           ptEquals, freshPoint, newPathAt, WindingSolid, flattenPostStep, postSeg,
           dedupTest, enforceWinding, shoelace, shoeAux, crossTerm, List.range_succ,
           dirLenSeg, normalize, ffW, boundsSeg, minF, maxF])).1
     (by norm_num [newPathAt, WindingSolid])⟩

end Nanovgo
